import Mathlib

/-!
Verification development for the PyGUI2 core: the address bus (src/bus.py)
and the element tree (src/elements.py), shallowly embedded in Lean 4.

Conventions of the embedding:
- Python integers are Lean Int (no machine overflow in CPython).
- Python dicts are insertion-ordered association lists, mirroring the
  CPython dict semantics used by the source (setting an existing key keeps
  its position, a new key is appended, pop removes the entry).
- Python object identity is a NodeId (a Nat index into a heap of nodes).
- Exceptions in handlers are modelled as an Option String result: none
  means the handler returned normally, some e means it raised with text e.
- weakref liveness: the embedding has no garbage collector, so a stored
  reference never goes dead; the periodic cleanup pass therefore removes
  nothing, which is faithful for every claim considered here (none of them
  concerns garbage collection).
- print diagnostics are dropped except for the error line emitted by
  AddressBus._call_handler, which claim C1 is about; it is modelled as a
  structured log entry.
-/

namespace PyGUI

/-- BROADCAST sentinel from src/bus.py. -/
def BROADCAST : Int := -1

/-- Response enumeration from src/bus.py (class Response). -/
inductive Response where
  | R_OK | R_ERROR | R_DISPOSED
  | R_RESET | R_TERMINATE
  | R_CLEAR | R_FONT | R_VIS
  | R_GET | R_DATA
deriving DecidableEq, Repr

/-- Numeric value of each Response member, as declared in src/bus.py. -/
def Response.toInt : Response → Int
  | .R_OK => 0 | .R_ERROR => 1 | .R_DISPOSED => 2
  | .R_RESET => 10 | .R_TERMINATE => 11
  | .R_CLEAR => 20 | .R_FONT => 21 | .R_VIS => 22
  | .R_GET => 40 | .R_DATA => 41

/-- The .name attribute of a Response member (used in the bus error line). -/
def Response.rname : Response → String
  | .R_OK => "R_OK" | .R_ERROR => "R_ERROR" | .R_DISPOSED => "R_DISPOSED"
  | .R_RESET => "R_RESET" | .R_TERMINATE => "R_TERMINATE"
  | .R_CLEAR => "R_CLEAR" | .R_FONT => "R_FONT" | .R_VIS => "R_VIS"
  | .R_GET => "R_GET" | .R_DATA => "R_DATA"

/-- Identity of a heap-allocated element object. -/
abbrev NodeId := Nat

/-- Values that appear in the per-node store and in metadata dictionaries.
The node constructor exists so that embedding a live element object inside
a dictionary is representable (the property ruled out by claim C8). The
time constructor stands for the wall-clock float written by time.time(),
whose numeric value is outside the model. -/
inductive MValue where
  | int (i : Int)
  | str (s : String)
  | bool (b : Bool)
  | ids (l : List Int)
  | node (id : NodeId)
  | time
deriving DecidableEq, Repr

/-- Payload of a Packet (the data field, typed Any in the source): either
absent, a live element reference (used by the DISPOSED broadcast), or a
dictionary (metadata snapshots, font/visual asset stores). -/
inductive PData where
  | none
  | element (id : NodeId)
  | dict (entries : List (String × MValue))
deriving DecidableEq, Repr

/-- Packet dataclass from src/bus.py. -/
structure Packet where
  receiver : Int
  sender : Int
  rs : Response
  data : PData
deriving DecidableEq, Repr

/-! Association lists with CPython dict semantics. -/

/-- dict.get: first binding of the key, if any. -/
def alistGet {α : Type} [DecidableEq α] {β : Type} :
    List (α × β) → α → Option β
  | [], _ => Option.none
  | (k, v) :: rest, key => if k = key then some v else alistGet rest key

/-- dict key assignment: replace in place if the key exists, else append. -/
def alistSet {α : Type} [DecidableEq α] {β : Type} :
    List (α × β) → α → β → List (α × β)
  | [], key, val => [(key, val)]
  | (k, v) :: rest, key, val =>
    if k = key then (k, val) :: rest else (k, v) :: alistSet rest key val

/-- dict.pop(key, default-ignored): drop the binding of the key. -/
def alistPop {α : Type} [DecidableEq α] {β : Type} :
    List (α × β) → α → List (α × β)
  | [], _ => []
  | (k, v) :: rest, key =>
    if k = key then rest else (k, v) :: alistPop rest key

/-- dict.update(other): fold the other dictionary into this one. -/
def alistUpdate {α : Type} [DecidableEq α] {β : Type}
    (base other : List (α × β)) : List (α × β) :=
  other.foldl (fun acc kv => alistSet acc kv.1 kv.2) base

/-!
Generic bus model.

AddressBus.pump, AddressBus._call_handler and their helpers from
src/bus.py, with the handler behaviour left as a parameter: a handler is
an arbitrary function of the address, the packet and the bus state that
returns the new bus state and optionally an exception text. This level
serves the claims that quantify over what handlers may do (raise, post,
unregister other nodes). The weak registry is reduced to the one datum
the bus reads from it outside of cleanup: the element name used in the
error line of _call_handler.
-/

/-- Bus state for the generic model: the pending queue, the registry
(address to element name, standing in for the weakly held element), the
handler cache (address to a flag telling whether the cached handler is
callable, i.e. not None), and the cleanup counters. -/
structure GBus where
  queue : List Packet
  elements : List (Int × String)
  cache : List (Int × Bool)
  processed : Int
  cleanup_count : Int
deriving DecidableEq, Repr

/-- Handler behaviour: given its address, the packet, and the bus state,
produce the new bus state and optionally a raised exception text. -/
abbrev HB := Int → Packet → GBus → GBus × Option String

/-- One record per handler invocation performed by pump. -/
structure Delivery where
  addr : Int
  msg : Packet
  raised : Option String
deriving DecidableEq, Repr

/-- The log line printed by AddressBus._call_handler when a handler
raises, in structured form. -/
structure LogEntry where
  comp_name : String
  kind : Response
  exc : String
deriving DecidableEq, Repr

/-- The element name used in the error line: the name of the element the
registry resolves at the address, or the fallback text. -/
def compName (b : GBus) (addr : Int) : String :=
  match alistGet b.elements addr with
  | some nm => nm
  | Option.none => "Element@" ++ toString addr

/-- Rendering of a LogEntry to the exact f-string printed by the source. -/
def LogEntry.render (l : LogEntry) : String :=
  "Error: handler exception in " ++ l.comp_name ++ " for message "
    ++ l.kind.rname ++ ": " ++ l.exc

/-- Accumulator threaded through a pump: bus state, processed count,
invocation records, raised-handler log. -/
abbrev GAcc := GBus × Nat × List Delivery × List LogEntry

/-- AddressBus._call_handler: invoke the handler; if it raises, swallow
the exception and log it with the element name resolved from the registry
(after the handler ran, as in the source) and the message kind. The
processed increment of the caller happens in gStep. -/
def gDeliver (hb : HB) (acc : GAcc) (msg : Packet) (addr : Int) : GAcc :=
  let (b, cnt, ds, log) := acc
  match hb addr msg b with
  | (b2, Option.none) =>
      (b2, cnt + 1, ds ++ [⟨addr, msg, Option.none⟩], log)
  | (b2, some exc) =>
      (b2, cnt + 1, ds ++ [⟨addr, msg, some exc⟩],
        log ++ [⟨compName b2 addr, msg.rs, exc⟩])

/-- Delivery of a single message inside AddressBus.pump: broadcast
iterates a snapshot of the handler cache taken once (list(items()) in the
source), unicast looks up the receiver; an absent or non-callable cached
handler is skipped silently. -/
def gStep (hb : HB) (acc : GAcc) (msg : Packet) : GAcc :=
  if msg.receiver = BROADCAST then
    (acc.1.cache).foldl
      (fun a2 entry => if entry.2 then gDeliver hb a2 msg entry.1 else a2)
      acc
  else
    match alistGet acc.1.cache msg.receiver with
    | some true => gDeliver hb acc msg msg.receiver
    | some false => acc
    | Option.none => acc

/-- AddressBus._cleanup: purge registry entries whose weak handle is
dead. The embedding has no garbage collection, so every handle stays
live and the pass removes nothing. -/
def gCleanup (b : GBus) : GBus := b

/-- AddressBus.pump: detach the queue contents, dispatch each message,
then run the periodic cleanup bookkeeping. Returns the final bus state,
the processed count that pump returns, the invocation records, and the
error log. -/
def gPump (hb : HB) (b : GBus) : GBus × Nat × List Delivery × List LogEntry :=
  if b.queue = [] then (b, 0, [], [])
  else
    let messages := b.queue
    let b1 : GBus := { b with queue := [] }
    let (b2, n, ds, log) := messages.foldl (gStep hb) (b1, 0, [], [])
    let b3 : GBus := { b2 with processed := b2.processed + (n : Int) }
    let b4 : GBus :=
      if b3.cleanup_count ≤ b3.processed then { gCleanup b3 with processed := 0 }
      else b3
    (b4, n, ds, log)

/-- The same handler behaviour with every exception suppressed: identical
state effects, never raises. Used to state that raising changes nothing
but the log. -/
def suppress (hb : HB) : HB :=
  fun addr msg b => ((hb addr msg b).1, Option.none)

/-- The invocation schedule of a delivery record list: which address got
which message, in order, forgetting whether the handler raised. -/
def sched (ds : List Delivery) : List (Int × Packet) :=
  ds.map (fun d => (d.addr, d.msg))

/-- Relation between an accumulator of a run and of its suppressed twin:
same bus state, same processed count, same invocation schedule. -/
def AccRel (a1 a2 : GAcc) : Prop :=
  a1.1 = a2.1 ∧ a1.2.1 = a2.2.1 ∧ sched a1.2.2.1 = sched a2.2.2.1

theorem sched_append (ds1 ds2 : List Delivery) :
    sched (ds1 ++ ds2) = sched ds1 ++ sched ds2 := by
  simp [sched]

theorem gDeliver_bus (hb : HB) (a : GAcc) (msg : Packet) (addr : Int) :
    (gDeliver hb a msg addr).1 = (hb addr msg a.1).1 := by
  rcases a with ⟨b, cnt, ds, log⟩
  simp only [gDeliver]
  rcases h : hb addr msg b with ⟨b2, r⟩
  cases r <;> simp [h]

theorem gDeliver_cnt (hb : HB) (a : GAcc) (msg : Packet) (addr : Int) :
    (gDeliver hb a msg addr).2.1 = a.2.1 + 1 := by
  rcases a with ⟨b, cnt, ds, log⟩
  simp only [gDeliver]
  rcases h : hb addr msg b with ⟨b2, r⟩
  cases r <;> simp [h]

theorem gDeliver_sched (hb : HB) (a : GAcc) (msg : Packet) (addr : Int) :
    sched (gDeliver hb a msg addr).2.2.1 = sched a.2.2.1 ++ [(addr, msg)] := by
  rcases a with ⟨b, cnt, ds, log⟩
  simp only [gDeliver]
  rcases h : hb addr msg b with ⟨b2, r⟩
  cases r <;> simp [h, sched_append, sched]

theorem gDeliver_rel (hb : HB) (a1 a2 : GAcc) (msg : Packet) (addr : Int)
    (h : AccRel a1 a2) :
    AccRel (gDeliver hb a1 msg addr) (gDeliver (suppress hb) a2 msg addr) := by
  obtain ⟨hb1, hc, hs⟩ := h
  refine ⟨?_, ?_, ?_⟩
  · rw [gDeliver_bus, gDeliver_bus, hb1]
    simp [suppress]
  · rw [gDeliver_cnt, gDeliver_cnt, hc]
  · rw [gDeliver_sched, gDeliver_sched, hs]

/-- Broadcast inner loop of gStep, named for use in proofs. -/
def bloop (hb : HB) (msg : Packet) (l : List (Int × Bool)) (a : GAcc) : GAcc :=
  l.foldl (fun a2 entry => if entry.2 then gDeliver hb a2 msg entry.1 else a2) a

theorem gStep_eq_bloop (hb : HB) (a : GAcc) (msg : Packet)
    (h : msg.receiver = BROADCAST) :
    gStep hb a msg = bloop hb msg a.1.cache a := by
  simp [gStep, bloop, h]

theorem bloop_rel (hb : HB) (msg : Packet) (l : List (Int × Bool))
    (a1 a2 : GAcc) (h : AccRel a1 a2) :
    AccRel (bloop hb msg l a1) (bloop (suppress hb) msg l a2) := by
  induction l generalizing a1 a2 with
  | nil => simpa [bloop] using h
  | cons e rest ih =>
    rcases e with ⟨k, flag⟩
    cases flag with
    | false => simpa [bloop] using ih a1 a2 h
    | true =>
      have := gDeliver_rel hb a1 a2 msg k h
      simpa [bloop] using ih _ _ this

theorem gStep_rel (hb : HB) (a1 a2 : GAcc) (msg : Packet) (h : AccRel a1 a2) :
    AccRel (gStep hb a1 msg) (gStep (suppress hb) a2 msg) := by
  by_cases hr : msg.receiver = BROADCAST
  · rw [gStep_eq_bloop hb a1 msg hr, gStep_eq_bloop (suppress hb) a2 msg hr, h.1]
    exact bloop_rel hb msg a2.1.cache a1 a2 h
  · simp only [gStep, hr, if_false, h.1]
    rcases hl : alistGet a2.1.cache msg.receiver with _ | flag
    · exact h
    · cases flag with
      | false => exact h
      | true => exact gDeliver_rel hb a1 a2 msg msg.receiver h

theorem foldl_gStep_rel (hb : HB) (msgs : List Packet) (a1 a2 : GAcc)
    (h : AccRel a1 a2) :
    AccRel (msgs.foldl (gStep hb) a1) (msgs.foldl (gStep (suppress hb)) a2) := by
  induction msgs generalizing a1 a2 with
  | nil => simpa using h
  | cons m rest ih => exact ih _ _ (gStep_rel hb a1 a2 m h)

/-- Log contents invariant: the log lists exactly one entry per raised
invocation, carrying that invocation's message kind and exception text. -/
def LogInv (a : GAcc) : Prop :=
  a.2.2.2.map (fun e => (e.kind, e.exc))
    = a.2.2.1.filterMap (fun d => d.raised.map (fun e => (d.msg.rs, e)))

theorem gDeliver_loginv (hb : HB) (a : GAcc) (msg : Packet) (addr : Int)
    (h : LogInv a) : LogInv (gDeliver hb a msg addr) := by
  rcases a with ⟨b, cnt, ds, log⟩
  simp only [LogInv] at h
  simp only [gDeliver]
  rcases hh : hb addr msg b with ⟨b2, r⟩
  cases r <;> simp [LogInv, h]

theorem bloop_loginv (hb : HB) (msg : Packet) (l : List (Int × Bool))
    (a : GAcc) (h : LogInv a) : LogInv (bloop hb msg l a) := by
  induction l generalizing a with
  | nil => simpa [bloop] using h
  | cons e rest ih =>
    rcases e with ⟨k, flag⟩
    cases flag with
    | false => simpa [bloop] using ih a h
    | true =>
      have := gDeliver_loginv hb a msg k h
      simpa [bloop] using ih _ this

theorem gStep_loginv (hb : HB) (a : GAcc) (msg : Packet) (h : LogInv a) :
    LogInv (gStep hb a msg) := by
  by_cases hr : msg.receiver = BROADCAST
  · rw [gStep_eq_bloop hb a msg hr]
    exact bloop_loginv hb msg a.1.cache a h
  · simp only [gStep, hr, if_false]
    rcases hl : alistGet a.1.cache msg.receiver with _ | flag
    · exact h
    · cases flag with
      | false => exact h
      | true => exact gDeliver_loginv hb a msg msg.receiver h

theorem foldl_gStep_loginv (hb : HB) (msgs : List Packet) (a : GAcc)
    (h : LogInv a) : LogInv (msgs.foldl (gStep hb) a) := by
  induction msgs generalizing a with
  | nil => simpa using h
  | cons m rest ih => exact ih _ (gStep_loginv hb a m h)

theorem bloop_sched (hb : HB) (msg : Packet) (l : List (Int × Bool)) (a : GAcc) :
    sched (bloop hb msg l a).2.2.1
      = sched a.2.2.1 ++ (l.filter (fun e => e.2)).map (fun e => (e.1, msg)) := by
  induction l generalizing a with
  | nil => simp [bloop]
  | cons e rest ih =>
    rcases e with ⟨k, flag⟩
    cases flag with
    | false => simpa [bloop] using ih a
    | true =>
      have hstep : bloop hb msg ((k, true) :: rest) a
          = bloop hb msg rest (gDeliver hb a msg k) := by
        simp [bloop]
      rw [hstep, ih (gDeliver hb a msg k), gDeliver_sched]
      simp

theorem bloop_cnt_len (hb : HB) (msg : Packet) (l : List (Int × Bool))
    (a : GAcc) (h : a.2.1 = a.2.2.1.length) :
    (bloop hb msg l a).2.1 = (bloop hb msg l a).2.2.1.length := by
  induction l generalizing a with
  | nil => simpa [bloop] using h
  | cons e rest ih =>
    rcases e with ⟨k, flag⟩
    cases flag with
    | false => simpa [bloop] using ih a h
    | true =>
      refine ?_
      have hnext : (gDeliver hb a msg k).2.1 = (gDeliver hb a msg k).2.2.1.length := by
        rcases a with ⟨b, cnt, ds, log⟩
        simp only [gDeliver]
        rcases hh : hb k msg b with ⟨b2, r⟩
        cases r <;> simp_all
      simpa [bloop] using ih _ hnext

theorem gStep_cnt_len (hb : HB) (a : GAcc) (msg : Packet)
    (h : a.2.1 = a.2.2.1.length) :
    (gStep hb a msg).2.1 = (gStep hb a msg).2.2.1.length := by
  by_cases hr : msg.receiver = BROADCAST
  · rw [gStep_eq_bloop hb a msg hr]
    exact bloop_cnt_len hb msg a.1.cache a h
  · simp only [gStep, hr, if_false]
    rcases hl : alistGet a.1.cache msg.receiver with _ | flag
    · exact h
    · cases flag with
      | false => exact h
      | true =>
        rcases a with ⟨b, cnt, ds, log⟩
        simp only [gDeliver]
        rcases hh : hb msg.receiver msg b with ⟨b2, r⟩
        cases r <;> simp_all

theorem foldl_gStep_cnt_len (hb : HB) (msgs : List Packet) (a : GAcc)
    (h : a.2.1 = a.2.2.1.length) :
    (msgs.foldl (gStep hb) a).2.1 = (msgs.foldl (gStep hb) a).2.2.1.length := by
  induction msgs generalizing a with
  | nil => simpa using h
  | cons m rest ih => exact ih _ (gStep_cnt_len hb a m h)

theorem gStep_skip (hb : HB) (a : GAcc) (msg : Packet)
    (h1 : msg.receiver ≠ BROADCAST) (h2 : alistGet a.1.cache msg.receiver = Option.none) :
    gStep hb a msg = a := by
  simp [gStep, h1, h2]

/-- Claim C1: if a handler raises during pump, the exception is caught per
delivery, logged with the originating element identity and the message
kind, and does not change the resulting bus state, the returned count, or
the invocation schedule compared with the run in which no handler raises:
every remaining address of the same broadcast and every remaining queued
message is still dispatched. (The embedding of pump is a total function
precisely because _call_handler catches every handler exception, so no
exception can propagate out of pump.) -/
theorem claim_C1 (hb : HB) (b : GBus) :
    (gPump hb b).1 = (gPump (suppress hb) b).1
    ∧ (gPump hb b).2.1 = (gPump (suppress hb) b).2.1
    ∧ sched (gPump hb b).2.2.1 = sched (gPump (suppress hb) b).2.2.1
    ∧ (gPump hb b).2.2.2.map (fun e => (e.kind, e.exc))
        = (gPump hb b).2.2.1.filterMap
            (fun d => d.raised.map (fun e => (d.msg.rs, e))) := by
  by_cases hq : b.queue = []
  · simp [gPump, hq, LogInv, sched]
  · have hrel : AccRel (b.queue.foldl (gStep hb) ({ b with queue := [] }, 0, [], []))
        (b.queue.foldl (gStep (suppress hb)) ({ b with queue := [] }, 0, [], [])) :=
      foldl_gStep_rel hb b.queue _ _ ⟨rfl, rfl, rfl⟩
    have hlog : LogInv (b.queue.foldl (gStep hb) ({ b with queue := [] }, 0, [], [])) :=
      foldl_gStep_loginv hb b.queue _ (by simp [LogInv])
    rcases hA : b.queue.foldl (gStep hb) ({ b with queue := [] }, 0, [], [])
      with ⟨b2, n2, ds2, log2⟩
    rcases hB : b.queue.foldl (gStep (suppress hb)) ({ b with queue := [] }, 0, [], [])
      with ⟨b3, n3, ds3, log3⟩
    rw [hA, hB] at hrel
    rw [hA] at hlog
    obtain ⟨e1, e2, e3⟩ := hrel
    simp only at e1 e2 e3
    simp only [LogInv] at hlog
    refine ⟨?_, ?_, ?_, ?_⟩
    · simp [gPump, hq, hA, hB, e1, e2]
    · simp [gPump, hq, hA, hB, e2]
    · simp [gPump, hq, hA, hB, e3]
    · simpa [gPump, hq, hA] using hlog

/-- Claim C2: delivery of a broadcast message iterates a snapshot of the
handler cache read once at the start of that message, so the invocation
schedule it appends is exactly the snapshot addresses holding a callable
handler, in snapshot order, no matter how the invoked handlers mutate the
cache (destroying or unregistering other nodes included); no address of
the snapshot is skipped and the loop is a total function (nothing is
raised). -/
theorem claim_C2 (hb : HB) (a : GAcc) (msg : Packet)
    (h : msg.receiver = BROADCAST) :
    sched (gStep hb a msg).2.2.1
      = sched a.2.2.1
        ++ ((a.1.cache.filter (fun e => e.2)).map (fun e => (e.1, msg))) := by
  rw [gStep_eq_bloop hb a msg h]
  exact bloop_sched hb msg a.1.cache a

/-- Handler behaviour for the C2 witness: the handler cached at address 1
removes address 2 from the handler cache when invoked (a handler
unregistering a sibling mid-broadcast). -/
def hbKill2 : HB :=
  fun addr _ b =>
    if addr = 1 then ({ b with cache := alistPop b.cache 2 }, Option.none)
    else (b, Option.none)

/-- Concrete accumulator for the C2 witness: two callable handlers cached,
nothing delivered yet. -/
def accW : GAcc :=
  (⟨[], [(1, "n1"), (2, "n2")], [(1, true), (2, true)], 0, 1000⟩, 0, [], [])

/-- Broadcast packet for the C2 witness. -/
def msgW : Packet := ⟨BROADCAST, 7, Response.R_RESET, PData.none⟩

theorem claim_C2_witness :
    sched (gStep hbKill2 accW msgW).2.2.1 = [(1, msgW), (2, msgW)] := by
  have h := claim_C2 hbKill2 accW msgW (by decide)
  rw [h]
  decide

/-- Handler behaviour that always raises, for the C5 counterexample. -/
def hbRaise : HB := fun _ _ b => (b, some "boom")

/-- Bus with one queued unicast message whose receiver has a cached
callable handler, for the C5 counterexample. -/
def busC5 : GBus :=
  ⟨[⟨1, 9, Response.R_OK, PData.none⟩], [(1, "n1")], [(1, true)], 0, 1000⟩

/-- Counterexample to claim C5 as stated: the single delivery raises, so
zero handler invocations completed without raising, yet pump returns 1 —
the source increments the processed counter after _call_handler whether or
not the handler raised, so the return value counts attempted deliveries,
not successful ones. -/
theorem claim_C5_cex :
    (gPump hbRaise busC5).2.1 = 1
    ∧ ((gPump hbRaise busC5).2.2.1.filter
        (fun d => d.raised = Option.none)).length = 0 := by
  decide

/-- Claim C5 as amended: pump returns the number of handler invocations —
deliveries attempted to a cached, callable handler — counting also the
invocations whose handler raised; and when every queued message is a
unicast whose receiver has no cached handler, every message is skipped
silently: pump returns 0 and performs no invocation. -/
theorem claim_C5_amended (hb : HB) (b : GBus) :
    (gPump hb b).2.1 = (gPump hb b).2.2.1.length
    ∧ ((∀ m ∈ b.queue, m.receiver ≠ BROADCAST
          ∧ alistGet b.cache m.receiver = Option.none)
        → (gPump hb b).2.1 = 0 ∧ (gPump hb b).2.2.1 = []) := by
  constructor
  · by_cases hq : b.queue = []
    · simp [gPump, hq]
    · have h := foldl_gStep_cnt_len hb b.queue ({ b with queue := [] }, 0, [], []) (by simp)
      rcases hA : b.queue.foldl (gStep hb) ({ b with queue := [] }, 0, [], [])
        with ⟨b2, n2, ds2, log2⟩
      rw [hA] at h
      simp only [gPump, hq, if_false, hA]
      simpa using h
  · intro hskip
    by_cases hq : b.queue = []
    · simp [gPump, hq]
    · have hfold : b.queue.foldl (gStep hb) ({ b with queue := [] }, 0, [], [])
          = ({ b with queue := [] }, 0, [], []) := by
        have general : ∀ (msgs : List Packet) (a : GAcc),
            (∀ m ∈ msgs, m.receiver ≠ BROADCAST
              ∧ alistGet a.1.cache m.receiver = Option.none)
            → msgs.foldl (gStep hb) a = a := by
          intro msgs
          induction msgs with
          | nil => intro a _; rfl
          | cons m rest ih =>
            intro a hall
            have hm := hall m (by simp)
            have hstep : gStep hb a m = a := gStep_skip hb a m hm.1 hm.2
            rw [List.foldl_cons, hstep]
            exact ih a (fun x hx => hall x (by simp [hx]))
        exact general b.queue _ (by simpa using hskip)
      simp [gPump, hq, hfold]

/-- Handler behaviour for the C5 amended witness (never raises, no state
effects). -/
def hbIdle : HB := fun _ _ b => (b, Option.none)

/-- Bus for the C5 amended witness: one unicast message to an address with
no cached handler. -/
def busC5w : GBus := ⟨[⟨5, 9, Response.R_OK, PData.none⟩], [], [], 0, 1000⟩

theorem claim_C5_witness :
    (gPump hbIdle busC5w).2.1 = 0 ∧ (gPump hbIdle busC5w).2.2.1 = [] :=
  (claim_C5_amended hbIdle busC5w).2 (by decide)

/-!
Concrete world model.

The element tree of src/elements.py together with the single address bus
owned by the root (src/core.py UIRoot). The heap is a total function from
NodeId to node records; object identity is the NodeId. The handler cache
maps an address to the node whose bound handle_message it caches (an
entry holding Option.none models a cached non-callable handler, which the
pump skips). Every recursive traversal of the heap takes a fuel argument,
because the Python heap permits cyclic parent/children links (see claim
C6); with enough fuel the embedding agrees with the terminating runs of
the source.
-/

/-- pygame.Rect restricted to the four fields the core reads/writes. -/
structure Rect where
  x : Int
  y : Int
  w : Int
  h : Int
deriving DecidableEq, Repr

/-- One element object: the UIChassis slots that the bus and tree logic
touch (src/elements.py). cls records the Python class name used by
get_metadata for the type tag. -/
structure Node where
  name : String
  cls : String
  rect : Rect
  parent : Option NodeId
  children : List NodeId
  address : Int
  active : Bool
  visible : Bool
  redraw : Bool
  disposed : Bool
  passthrough : Bool
  cache : Option NodeId
  cache_r : Option Rect
  depth : Int
  depth_max : Int
  store : List (String × MValue)
deriving DecidableEq, Repr

/-- The whole mutable state: the heap of nodes, the identity of the root
node owning the AddressBus (UIRoot.bus; Option.none when no root carries
a bus), and the fields of that bus. -/
structure World where
  nodes : NodeId → Node
  busOwner : Option NodeId
  next_addr : Int
  processed : Int
  cleanup_count : Int
  queue : List Packet
  elements : List (Int × NodeId)
  cache : List (Int × Option NodeId)

/-- Point update of one node of the heap. -/
def setNode (w : World) (id : NodeId) (f : Node → Node) : World :=
  { w with nodes := fun j => if j = id then f (w.nodes j) else w.nodes j }

/-- Events recorded by the embedding so that ordering claims can be
stated: handler invocations by the pump, queue appends, and the
teardown steps of destroy. -/
inductive Ev where
  | delivered (addr : Int) (msg : Packet)
  | posted (p : Packet)
  | unregistered (id : NodeId)
  | setDisposed (id : NodeId)
  | detached (id : NodeId)
  | clearedChildren (id : NodeId)
deriving DecidableEq, Repr

/-- AddressBus.register from src/bus.py: allocate an address on first
registration only, then store the registry entry and cache the node's
handle_message (always callable for a UIElement, hence some id). -/
def register (w : World) (id : NodeId) : World :=
  let w1 := if (w.nodes id).address < 0 then
      { setNode w id (fun n => { n with address := w.next_addr })
          with next_addr := w.next_addr + 1 }
    else w
  let addr := (w1.nodes id).address
  { w1 with elements := alistSet w1.elements addr id,
            cache := alistSet w1.cache addr (some id) }

/-- AddressBus.unregister from src/bus.py: drop the registry entry and
the handler cache entry for the node's address. -/
def unregister (w : World) (id : NodeId) : World :=
  let addr := (w.nodes id).address
  { w with elements := alistPop w.elements addr,
           cache := alistPop w.cache addr }

/-- AddressBus._cleanup: purge entries whose weak reference is dead; the
embedding has no garbage collection, so nothing is ever purged. -/
def cleanupW (w : World) : World := w

/-- The parent walk inside UIElement.root. -/
def climb (f : Nat) (w : World) (id : NodeId) : NodeId :=
  match f, (w.nodes id).parent with
  | 0, _ => id
  | _ + 1, Option.none => id
  | f + 1, some p => climb f w p

/-- UIElement.root: return the memoized root if cached, else walk up the
parent chain and memoize the result. -/
def rootOf (f : Nat) (w : World) (id : NodeId) : World × NodeId :=
  match (w.nodes id).cache with
  | some r => (w, r)
  | Option.none =>
    let r := climb f w id
    (setNode w id (fun n => { n with cache := some r }), r)

/-- UIElement.connected: the root element carries a live bus. -/
def connected (w : World) (rt : NodeId) : Prop := w.busOwner = some rt

instance (w : World) (rt : NodeId) : Decidable (connected w rt) := by
  unfold connected; infer_instance

/-- UIElement.reset_graphics: clear the drawing cache of this node and,
when recursive, of the whole subtree. -/
def reset_graphics : Nat → Bool → NodeId → World → World
  | 0, _, _, w => w
  | f + 1, recursive, id, w =>
    let w1 := setNode w id
      (fun n => { n with redraw := true, cache_r := Option.none })
    if recursive then
      (w1.nodes id).children.foldl
        (fun acc c => reset_graphics f recursive c acc) w1
    else w1

/-- UIElement.reset: clear the local graphics cache and the root memo,
then propagate reset over the children (reset_branch inlined). -/
def reset : Nat → NodeId → World → World
  | 0, _, w => w
  | f + 1, id, w =>
    let w1 := reset_graphics (f + 1) false id w
    let w2 := setNode w1 id (fun n => { n with cache := Option.none })
    (w2.nodes id).children.foldl (fun acc c => reset f c acc) w2

/-- UIElement.reset_db: wipe the local store, recursively if asked. -/
def reset_db : Nat → Bool → NodeId → World → World
  | 0, _, _, w => w
  | f + 1, recursive, id, w =>
    let w1 := setNode w id (fun n => { n with store := [] })
    if recursive then
      (w1.nodes id).children.foldl
        (fun acc c => reset_db f recursive c acc) w1
    else w1

/-- UIElement._update_depth: set this node's depth and shift every child
by the same change, reading each child's current depth at its turn. -/
def update_depth : Nat → NodeId → Int → World → World
  | 0, _, _, w => w
  | f + 1, id, nd, w =>
    let change := nd - (w.nodes id).depth
    let w1 := setNode w id (fun n => { n with depth := nd })
    (w1.nodes id).children.foldl
      (fun acc c => update_depth f c ((acc.nodes c).depth + change) acc) w1

/-- UIElement.remove: detach a child (unregistration is left to destroy),
resetting the local and branch caches afterwards. -/
def removeE (f : Nat) (pid cid : NodeId) (w : World) : World :=
  if cid ∈ (w.nodes pid).children then
    let w1 := setNode w pid (fun n => { n with children := n.children.erase cid })
    let w2 := setNode w1 cid (fun n => { n with parent := Option.none })
    reset f pid w2
  else w

/-- UIElement.add: refuse self-adoption and re-adding an own child; under
the max-depth guard, append the child, set its parent link, propagate the
new depth through its subtree, reset caches, and register the child when
the root carries a bus. -/
def addE (f : Nat) (pid cid : NodeId) (w : World) : World :=
  if cid = pid ∨ (w.nodes cid).parent = some pid then w
  else if (w.nodes cid).depth < (w.nodes pid).depth_max then
    let w1 := setNode w pid (fun n => { n with children := n.children ++ [cid] })
    let w2 := setNode w1 cid (fun n => { n with parent := some pid })
    let w3 := update_depth f cid ((w2.nodes pid).depth + 1) w2
    let w4 := reset f pid w3
    let pr := rootOf f w4 pid
    if pr.1.busOwner = some pr.2 then register pr.1 cid else pr.1
  else w

/-- UIElement.get_metadata: the metadata dictionary in source order; the
parent contributes only its address (the embedding of the parent object
itself would be the MValue.node constructor, which never occurs here). -/
def get_metadata (w : World) (id : NodeId) : List (String × MValue) :=
  let n := w.nodes id
  let base : List (String × MValue) :=
    [("name", MValue.str n.name), ("type", MValue.str n.cls),
     ("address", MValue.int n.address), ("timeframe", MValue.time),
     ("x", MValue.int n.rect.x), ("y", MValue.int n.rect.y),
     ("width", MValue.int n.rect.w), ("height", MValue.int n.rect.h),
     ("visible", MValue.bool n.visible),
     ("passthrough", MValue.bool n.passthrough),
     ("disposed", MValue.bool n.disposed),
     ("length", MValue.int (n.children.length : Int)),
     ("container", MValue.ids (n.children.map (fun c => (w.nodes c).address)))]
  match n.parent with
  | some p => base ++ [("parent:address", MValue.int ((w.nodes p).address))]
  | Option.none => base

mutual

/-- UIElement.destroy: destroy the children first (iterating a copy of
the children list), unregister from the bus when connected, broadcast
R_DISPOSED carrying self with priority, mark disposed, detach from the
parent, clear the children, null the parent link. -/
def destroy : Nat → NodeId → World → World × List Ev
  | 0, _, w => (w, [])
  | f + 1, id, w =>
    if (w.nodes id).disposed then (w, [])
    else
      let cs := (w.nodes id).children
      let r1 := cs.foldl
        (fun acc c =>
          let r := destroy f c acc.1
          (r.1, acc.2 ++ r.2)) ((w, []) : World × List Ev)
      let pr := rootOf f r1.1 id
      let r2 :=
        if pr.1.busOwner = some pr.2 then
          ((unregister pr.1 id, [Ev.unregistered id]) : World × List Ev)
        else (pr.1, [])
      let r3 := post f id BROADCAST Response.R_DISPOSED (PData.element id) true r2.1
      let w5 := setNode r3.1 id (fun n => { n with disposed := true })
      let w6 := match (w5.nodes id).parent with
        | some p => removeE f p id w5
        | Option.none => w5
      let w7 := setNode w6 id
        (fun n => { n with children := [], parent := Option.none })
      (w7, r1.2 ++ r2.2 ++ r3.2
        ++ [Ev.setDisposed id, Ev.detached id, Ev.clearedChildren id])

/-- UIElement.post: resolve the root; when it carries a bus, enqueue a
packet with this node as sender, and on priority pump synchronously. -/
def post : Nat → NodeId → Int → Response → PData → Bool → World → World × List Ev
  | 0, _, _, _, _, _, w => (w, [])
  | f + 1, id, recv, resp, attachment, priority, w =>
    let pr := rootOf f w id
    if pr.1.busOwner = some pr.2 then
      let pkt : Packet := ⟨recv, (pr.1.nodes id).address, resp, attachment⟩
      let w2 := { pr.1 with queue := pr.1.queue ++ [pkt] }
      if priority then
        let r := pump f w2
        (r.1, Ev.posted pkt :: r.2.2)
      else (w2, [Ev.posted pkt])
    else (pr.1, [])

/-- AddressBus.pump over the concrete world: detach the queue, dispatch
each message, then do the periodic-cleanup bookkeeping. -/
def pump : Nat → World → World × Nat × List Ev
  | 0, w => (w, 0, [])
  | f + 1, w =>
    if w.queue = [] then (w, 0, [])
    else
      let messages := w.queue
      let w1 : World := { w with queue := [] }
      let r := messages.foldl
        (fun acc msg =>
          let s := pump_msg f acc.1 msg
          (s.1, acc.2.1 + s.2.1, acc.2.2 ++ s.2.2))
        ((w1, 0, []) : World × Nat × List Ev)
      let w3 : World := { r.1 with processed := r.1.processed + (r.2.1 : Int) }
      let w4 := if w3.cleanup_count ≤ w3.processed
        then { cleanupW w3 with processed := 0 } else w3
      (w4, r.2.1, r.2.2)

/-- Dispatch of a single message inside AddressBus.pump: broadcast over a
snapshot of the handler cache, or unicast to the cached receiver; absent
or non-callable handlers are skipped. -/
def pump_msg : Nat → World → Packet → World × Nat × List Ev
  | 0, w, _ => (w, 0, [])
  | f + 1, w, msg =>
    if msg.receiver = BROADCAST then
      (w.cache).foldl
        (fun acc entry =>
          match entry.2 with
          | some hid =>
            let r := handle_message f hid msg acc.1
            (r.1, acc.2.1 + 1, acc.2.2 ++ (Ev.delivered entry.1 msg :: r.2))
          | Option.none => acc)
        ((w, 0, []) : World × Nat × List Ev)
    else
      match alistGet w.cache msg.receiver with
      | some (some hid) =>
        let r := handle_message f hid msg w
        (r.1, 1, Ev.delivered msg.receiver msg :: r.2)
      | some Option.none => (w, 0, [])
      | Option.none => (w, 0, [])

/-- UIElement.handle_message: ignore messages when disposed or sent by
self; otherwise dispatch on the message kind as in the source (note that
R_OK, R_ERROR, R_DISPOSED and R_DATA fall through the if chain and leave
the node untouched). -/
def handle_message : Nat → NodeId → Packet → World → World × List Ev
  | 0, _, _, w => (w, [])
  | f + 1, id, msg, w =>
    let n := w.nodes id
    if n.disposed ∨ msg.sender = n.address then (w, [])
    else
      match msg.rs with
      | Response.R_GET =>
        post f id msg.sender Response.R_DATA (PData.dict (get_metadata w id)) false w
      | Response.R_FONT =>
        match msg.data with
        | PData.dict d =>
          (setNode w id (fun nd => { nd with store := alistUpdate nd.store d }), [])
        | _ => (w, [])
      | Response.R_VIS =>
        match msg.data with
        | PData.dict d =>
          (setNode w id (fun nd => { nd with store := alistUpdate nd.store d }), [])
        | _ => (w, [])
      | Response.R_RESET => (reset f id w, [])
      | Response.R_TERMINATE => destroy f id w
      | Response.R_CLEAR => (reset_db f false id w, [])
      | _ => (w, [])

end

/-- Setter of the x property: write the coordinate (int coercion is the
identity on Int), then reset the graphics caches of the subtree and the
local/branch caches. No clamping is applied to the position. -/
def setX (f : Nat) (id : NodeId) (v : Int) (w : World) : World :=
  let w1 := setNode w id (fun n => { n with rect := { n.rect with x := v } })
  let w2 := reset_graphics f true id w1
  reset f id w2

/-- Setter of the y property. -/
def setY (f : Nat) (id : NodeId) (v : Int) (w : World) : World :=
  let w1 := setNode w id (fun n => { n with rect := { n.rect with y := v } })
  let w2 := reset_graphics f true id w1
  reset f id w2

/-- Setter of the width property: clamps to a minimum of 1. -/
def setWidth (f : Nat) (id : NodeId) (v : Int) (w : World) : World :=
  let w1 := setNode w id (fun n => { n with rect := { n.rect with w := max 1 v } })
  let w2 := reset_graphics f true id w1
  reset f id w2

/-- Setter of the height property: clamps to a minimum of 1. -/
def setHeight (f : Nat) (id : NodeId) (v : Int) (w : World) : World :=
  let w1 := setNode w id (fun n => { n with rect := { n.rect with h := max 1 v } })
  let w2 := reset_graphics f true id w1
  reset f id w2

/-- Setter of the position property: writes both coordinates, unclamped. -/
def setPosition (f : Nat) (id : NodeId) (vx vy : Int) (w : World) : World :=
  let w1 := setNode w id (fun n => { n with rect := { n.rect with x := vx, y := vy } })
  let w2 := reset_graphics f true id w1
  reset f id w2

/-- Setter of the size property: clamps both dimensions to a minimum of 1. -/
def setSize (f : Nat) (id : NodeId) (vx vy : Int) (w : World) : World :=
  let w1 := setNode w id
    (fun n => { n with rect := { n.rect with w := max 1 vx, h := max 1 vy } })
  let w2 := reset_graphics f true id w1
  reset f id w2

/-- UIElement.bring_to_front: move self to the end of the parent's
children list and reset the parent (no-op when parentless; the
ValueError branch of the source corresponds to self missing from the
list, leaving the world unchanged). -/
def bring_to_front (f : Nat) (id : NodeId) (w : World) : World :=
  match (w.nodes id).parent with
  | Option.none => w
  | some p =>
    if id ∈ (w.nodes p).children then
      let w1 := setNode w p (fun n => { n with children := n.children.erase id ++ [id] })
      reset f p w1
    else w

/-- UIElement.send_to_back: move self to the front of the parent's
children list and reset the parent. -/
def send_to_back (f : Nat) (id : NodeId) (w : World) : World :=
  match (w.nodes id).parent with
  | Option.none => w
  | some p =>
    if id ∈ (w.nodes p).children then
      let w1 := setNode w p (fun n => { n with children := id :: n.children.erase id })
      reset f p w1
    else w

/-- The public operations of the core, for stating invariants over
arbitrary operation sequences. -/
inductive Op where
  | add (p c : NodeId)
  | remove (p c : NodeId)
  | destroyOp (id : NodeId)
  | handle (id : NodeId) (msg : Packet)
  | pumpOp
  | postOp (id : NodeId) (recv : Int) (rs : Response) (d : PData) (prio : Bool)
  | setXOp (id : NodeId) (v : Int)
  | setYOp (id : NodeId) (v : Int)
  | setWidthOp (id : NodeId) (v : Int)
  | setHeightOp (id : NodeId) (v : Int)
  | setPositionOp (id : NodeId) (vx vy : Int)
  | setSizeOp (id : NodeId) (vx vy : Int)
  | resetOp (id : NodeId)
  | resetDbOp (recursive : Bool) (id : NodeId)
  | registerOp (id : NodeId)
  | unregisterOp (id : NodeId)
  | frontOp (id : NodeId)
  | backOp (id : NodeId)
  | clearOp
deriving DecidableEq, Repr

/-- Execute one public operation on the world. -/
def exec (f : Nat) (op : Op) (w : World) : World :=
  match op with
  | Op.add p c => addE f p c w
  | Op.remove p c => removeE f p c w
  | Op.destroyOp id => (destroy f id w).1
  | Op.handle id msg => (handle_message f id msg w).1
  | Op.pumpOp => (pump f w).1
  | Op.postOp id recv rs d prio => (post f id recv rs d prio w).1
  | Op.setXOp id v => setX f id v w
  | Op.setYOp id v => setY f id v w
  | Op.setWidthOp id v => setWidth f id v w
  | Op.setHeightOp id v => setHeight f id v w
  | Op.setPositionOp id vx vy => setPosition f id vx vy w
  | Op.setSizeOp id vx vy => setSize f id vx vy w
  | Op.resetOp id => reset f id w
  | Op.resetDbOp r id => reset_db f r id w
  | Op.registerOp id => register w id
  | Op.unregisterOp id => unregister w id
  | Op.frontOp id => bring_to_front f id w
  | Op.backOp id => send_to_back f id w
  | Op.clearOp => { w with queue := [] }

/-!
Invariance lemmas: which fields each helper operation leaves untouched.
-/

/-- Equality of two node records on every field except the three caches
(redraw, cache, cache_r) and the store. -/
def coreEq (a b : Node) : Prop :=
  a.name = b.name ∧ a.cls = b.cls ∧ a.rect = b.rect ∧ a.parent = b.parent
  ∧ a.children = b.children ∧ a.address = b.address ∧ a.active = b.active
  ∧ a.visible = b.visible ∧ a.disposed = b.disposed
  ∧ a.passthrough = b.passthrough ∧ a.depth = b.depth
  ∧ a.depth_max = b.depth_max

theorem coreEq_refl (a : Node) : coreEq a a := by
  simp [coreEq]

theorem coreEq_trans {a b c : Node} (h1 : coreEq a b) (h2 : coreEq b c) :
    coreEq a c := by
  obtain ⟨a1, a2, a3, a4, a5, a6, a7, a8, a9, a10, a11, a12⟩ := h1
  obtain ⟨b1, b2, b3, b4, b5, b6, b7, b8, b9, b10, b11, b12⟩ := h2
  exact ⟨a1.trans b1, a2.trans b2, a3.trans b3, a4.trans b4, a5.trans b5,
    a6.trans b6, a7.trans b7, a8.trans b8, a9.trans b9, a10.trans b10,
    a11.trans b11, a12.trans b12⟩

/-- Pointwise coreEq between the heaps of two worlds (second relative to
first). -/
def nodesCoreEq (w w' : World) : Prop := ∀ n, coreEq ((w'.nodes) n) ((w.nodes) n)

theorem nodesCoreEq_refl (w : World) : nodesCoreEq w w := fun _ => coreEq_refl _

theorem nodesCoreEq_trans {a b c : World} (h1 : nodesCoreEq a b)
    (h2 : nodesCoreEq b c) : nodesCoreEq a c :=
  fun n => coreEq_trans (h2 n) (h1 n)

/-- Generic preservation of a reflexive transitive world relation along a
left fold whose accumulator carries extra data besides the world. -/
theorem foldl_projRel {α σ : Type} (R : World → World → Prop)
    (htrans : ∀ {a b c : World}, R a b → R b c → R a c)
    (hrefl : ∀ w, R w w) (p : σ → World) (g : σ → α → σ)
    (hg : ∀ s a, R (p s) (p (g s a))) :
    ∀ (l : List α) (s : σ), R (p s) (p (l.foldl g s)) := by
  intro l
  induction l with
  | nil => intro s; exact hrefl _
  | cons a rest ih => intro s; exact htrans (hg s a) (ih (g s a))

theorem setNode_nodes (w : World) (id : NodeId) (f : Node → Node) (n : NodeId) :
    ((setNode w id f).nodes) n = if n = id then f ((w.nodes) n) else (w.nodes) n := by
  simp [setNode]

theorem reset_graphics_coreEq (f : Nat) (recursive : Bool) (id : NodeId)
    (w : World) : nodesCoreEq w (reset_graphics f recursive id w) := by
  induction f generalizing recursive id w with
  | zero => exact nodesCoreEq_refl w
  | succ f ih =>
    have h1 : nodesCoreEq w
        (setNode w id (fun n => { n with redraw := true, cache_r := Option.none })) := by
      intro n
      rw [setNode_nodes]
      by_cases h : n = id
      · simp [h, coreEq]
      · simp [h, coreEq_refl]
    simp only [reset_graphics]
    cases recursive with
    | false => simpa using h1
    | true =>
      simp only [if_true]
      refine nodesCoreEq_trans h1 ?_
      exact foldl_projRel nodesCoreEq nodesCoreEq_trans nodesCoreEq_refl
        (fun w => w) (fun acc c => reset_graphics f true c acc)
        (fun s a => ih true a s) _ _

theorem reset_coreEq (f : Nat) (id : NodeId) (w : World) :
    nodesCoreEq w (reset f id w) := by
  induction f generalizing id w with
  | zero => exact nodesCoreEq_refl w
  | succ f ih =>
    simp only [reset]
    have h2 : ∀ (v : World), nodesCoreEq v
        (setNode v id (fun n => { n with cache := Option.none })) := by
      intro v n
      rw [setNode_nodes]
      by_cases h : n = id
      · simp [h, coreEq]
      · simp [h, coreEq_refl]
    exact nodesCoreEq_trans (reset_graphics_coreEq (f + 1) false id w)
      (nodesCoreEq_trans (h2 _)
        (foldl_projRel nodesCoreEq nodesCoreEq_trans nodesCoreEq_refl
          (fun w => w) (fun acc c => reset f c acc) (fun s a => ih a s) _ _))

theorem reset_db_coreEq (f : Nat) (recursive : Bool) (id : NodeId)
    (w : World) : nodesCoreEq w (reset_db f recursive id w) := by
  induction f generalizing recursive id w with
  | zero => exact nodesCoreEq_refl w
  | succ f ih =>
    have h1 : nodesCoreEq w (setNode w id (fun n => { n with store := [] })) := by
      intro n
      rw [setNode_nodes]
      by_cases h : n = id
      · simp [h, coreEq]
      · simp [h, coreEq_refl]
    simp only [reset_db]
    cases recursive with
    | false => simpa using h1
    | true =>
      simp only [if_true]
      refine nodesCoreEq_trans h1 ?_
      exact foldl_projRel nodesCoreEq nodesCoreEq_trans nodesCoreEq_refl
        (fun w => w) (fun acc c => reset_db f true c acc)
        (fun s a => ih true a s) _ _

/-- Bus-side fields that the pure tree-cache operations never touch. -/
def busEq (w w' : World) : Prop :=
  w'.busOwner = w.busOwner ∧ w'.next_addr = w.next_addr
  ∧ w'.processed = w.processed ∧ w'.cleanup_count = w.cleanup_count
  ∧ w'.queue = w.queue ∧ w'.elements = w.elements ∧ w'.cache = w.cache

theorem busEq_refl (w : World) : busEq w w := by simp [busEq]

theorem busEq_trans {a b c : World} (h1 : busEq a b) (h2 : busEq b c) :
    busEq a c := by
  obtain ⟨a1, a2, a3, a4, a5, a6, a7⟩ := h1
  obtain ⟨b1, b2, b3, b4, b5, b6, b7⟩ := h2
  exact ⟨b1.trans a1, b2.trans a2, b3.trans a3, b4.trans a4, b5.trans a5,
    b6.trans a6, b7.trans a7⟩

theorem setNode_busEq (w : World) (id : NodeId) (f : Node → Node) :
    busEq w (setNode w id f) := by simp [setNode, busEq]

theorem reset_graphics_busEq (f : Nat) (recursive : Bool) (id : NodeId)
    (w : World) : busEq w (reset_graphics f recursive id w) := by
  induction f generalizing recursive id w with
  | zero => exact busEq_refl w
  | succ f ih =>
    simp only [reset_graphics]
    cases recursive with
    | false => simpa using setNode_busEq w id _
    | true =>
      simp only [if_true]
      exact busEq_trans (setNode_busEq w id _)
        (foldl_projRel busEq busEq_trans busEq_refl
          (fun w => w) (fun acc c => reset_graphics f true c acc)
          (fun s a => ih true a s) _ _)

theorem reset_busEq (f : Nat) (id : NodeId) (w : World) :
    busEq w (reset f id w) := by
  induction f generalizing id w with
  | zero => exact busEq_refl w
  | succ f ih =>
    simp only [reset]
    exact busEq_trans (reset_graphics_busEq (f + 1) false id w)
      (busEq_trans (setNode_busEq _ id _)
        (foldl_projRel busEq busEq_trans busEq_refl
          (fun w => w) (fun acc c => reset f c acc) (fun s a => ih a s) _ _))

theorem reset_db_busEq (f : Nat) (recursive : Bool) (id : NodeId)
    (w : World) : busEq w (reset_db f recursive id w) := by
  induction f generalizing recursive id w with
  | zero => exact busEq_refl w
  | succ f ih =>
    simp only [reset_db]
    cases recursive with
    | false => simpa using setNode_busEq w id _
    | true =>
      simp only [if_true]
      exact busEq_trans (setNode_busEq w id _)
        (foldl_projRel busEq busEq_trans busEq_refl
          (fun w => w) (fun acc c => reset_db f true c acc)
          (fun s a => ih true a s) _ _)

theorem update_depth_busEq (f : Nat) (id : NodeId) (nd : Int) (w : World) :
    busEq w (update_depth f id nd w) := by
  induction f generalizing id nd w with
  | zero => exact busEq_refl w
  | succ f ih =>
    simp only [update_depth]
    exact busEq_trans (setNode_busEq w id _)
      (foldl_projRel busEq busEq_trans busEq_refl
        (fun w => w)
        (fun acc c => update_depth f c
          (((acc.nodes) c).depth + (nd - ((w.nodes) id).depth)) acc)
        (fun s a => ih a _ s) _ _)

theorem rootOf_busEq (f : Nat) (w : World) (id : NodeId) :
    busEq w (rootOf f w id).1 := by
  unfold rootOf
  cases h : (w.nodes) id |>.cache with
  | some r => exact busEq_refl w
  | none => simpa [h] using setNode_busEq w id _

/-- rootOf leaves the heap coreEq (it only memoizes the root cache). -/
theorem rootOf_coreEq (f : Nat) (w : World) (id : NodeId) :
    nodesCoreEq w (rootOf f w id).1 := by
  unfold rootOf
  cases h : (w.nodes) id |>.cache with
  | some r => exact nodesCoreEq_refl w
  | none =>
    simp only [h]
    intro n
    rw [setNode_nodes]
    by_cases hn : n = id
    · simp [hn, coreEq]
    · simp [hn, coreEq_refl]

/-- After rootOf, the root memo of the queried node holds exactly the
returned root. -/
theorem rootOf_cache (f : Nat) (w : World) (id : NodeId) :
    (((rootOf f w id).1.nodes) id).cache = some (rootOf f w id).2 := by
  unfold rootOf
  cases h : (w.nodes) id |>.cache with
  | some r => simp [h]
  | none => simp [h, setNode_nodes]

theorem unregister_nodes (w : World) (id : NodeId) :
    (unregister w id).nodes = w.nodes := rfl

theorem unregister_busOwner (w : World) (id : NodeId) :
    (unregister w id).busOwner = w.busOwner := rfl

theorem unregister_queue (w : World) (id : NodeId) :
    (unregister w id).queue = w.queue := rfl

theorem rootOf_hit (f : Nat) (w : World) (id : NodeId) (r : NodeId)
    (h : ((w.nodes) id).cache = some r) : rootOf f w id = (w, r) := by
  simp [rootOf, h]

theorem removeE_disposed (f : Nat) (p c : NodeId) (w : World) (n : NodeId) :
    (((removeE f p c w).nodes) n).disposed = ((w.nodes) n).disposed := by
  unfold removeE
  by_cases h : c ∈ ((w.nodes) p).children
  · simp only [h, if_true]
    have h1 := (reset_coreEq f p (setNode (setNode w p
      (fun nd => { nd with children := nd.children.erase c })) c
      (fun nd => { nd with parent := Option.none }))) n
    rw [h1.2.2.2.2.2.2.2.2.1]
    rw [setNode_nodes, setNode_nodes]
    by_cases hc : n = c <;> by_cases hp : n = p <;>
      simp [hc, hp] <;> (try (split <;> rfl))
  · simp [h]

/-- The children-destruction loop at the head of UIElement.destroy,
iterating over the snapshot of the children list. -/
def destroy_list (f : Nat) (cs : List NodeId) (w : World) : World × List Ev :=
  cs.foldl (fun acc c =>
    let r := destroy f c acc.1
    (r.1, acc.2 ++ r.2)) ((w, []) : World × List Ev)

/-- Claim C3: on a non-disposed node whose root carries the bus, destroy
performs, in this order: the recursive destruction of all children
(destroy_list over the snapshot of the children), the unregistration from
the bus, the posting of a BROADCAST R_DISPOSED packet whose payload is
the node itself — followed immediately by the synchronous pump of that
packet (priority post), so the announcement is delivered before teardown
completes — then setting the disposed flag, detaching from the parent and
clearing the children sequence; afterwards the node is disposed with no
parent and no children. -/
theorem claim_C3 (f : Nat) (w : World) (id : NodeId)
    (h0 : ((w.nodes) id).disposed = false)
    (w1 : World) (tr1 : List Ev)
    (hr1 : destroy_list (f + 1) (((w.nodes) id).children) w = (w1, tr1))
    (wA : World) (rt : NodeId)
    (hpr : rootOf (f + 1) w1 id = (wA, rt))
    (hconn : wA.busOwner = some rt) :
    (destroy (f + 2) id w).2
      = tr1 ++ [Ev.unregistered id]
        ++ (Ev.posted (Packet.mk BROADCAST (((wA.nodes) id).address)
              Response.R_DISPOSED (PData.element id))
            :: (pump f { unregister wA id with
                  queue := wA.queue
                    ++ [Packet.mk BROADCAST (((wA.nodes) id).address)
                          Response.R_DISPOSED (PData.element id)] }).2.2)
        ++ [Ev.setDisposed id, Ev.detached id, Ev.clearedChildren id]
    ∧ (((destroy (f + 2) id w).1.nodes) id).disposed = true
    ∧ (((destroy (f + 2) id w).1.nodes) id).parent = Option.none
    ∧ (((destroy (f + 2) id w).1.nodes) id).children = [] := by
  simp only [destroy_list] at hr1
  have hcache : ((wA.nodes) id).cache = some rt := by
    have h := rootOf_cache (f + 1) w1 id
    rw [hpr] at h
    exact h
  have hx : ¬ ((w.nodes) id).disposed = true := by simp [h0]
  have hru : rootOf f (unregister wA id) id = (unregister wA id, rt) :=
    rootOf_hit f _ id rt (by rw [unregister_nodes]; exact hcache)
  have hpost := post.eq_2 id BROADCAST Response.R_DISPOSED (PData.element id) true
    (unregister wA id) f
  rw [hru] at hpost
  simp only [unregister_busOwner, unregister_nodes, unregister_queue, hconn,
    eq_self_iff_true, if_true] at hpost
  have hmain := destroy.eq_2 id w (f + 1)
  rw [if_neg hx] at hmain
  simp only [hr1, hpr, hconn, eq_self_iff_true, if_true] at hmain
  simp only [hpost] at hmain
  refine ⟨?_, ?_, ?_, ?_⟩
  · rw [hmain]
    simp [hconn, unregister_busOwner, unregister_nodes, List.append_assoc]
  · rw [hmain]
    simp [setNode_nodes]
    split
    · rw [removeE_disposed]
      simp [setNode_nodes]
    · simp [setNode_nodes]
  · rw [hmain]
    simp [setNode_nodes]
  · rw [hmain]
    simp [setNode_nodes]

/-- Default node record: the slot values a fresh UIElement gets from the
UIChassis and UIElement constructors (position 0,0, size 128 by 64,
detached, unregistered). -/
def defNode : Node :=
  ⟨"UIElement", "UIElement", ⟨0, 0, 128, 64⟩, Option.none, [], -1,
    false, true, true, false, false, Option.none, Option.none, 0, 255, []⟩

/-- Witness world for the teardown claims: node 0 is a UIRoot owning the
bus (registered at address 1), node 1 is its child registered at
address 2. -/
def wit0 : World :=
  { nodes := fun j =>
      if j = 0 then
        { defNode with
            name := "UIRoot"
            cls := "UIRoot"
            children := [1]
            address := 1 }
      else if j = 1 then
        { defNode with parent := some 0, address := 2, depth := 1 }
      else defNode,
    busOwner := some 0, next_addr := 3, processed := 0,
    cleanup_count := 1000, queue := [],
    elements := [(1, 0), (2, 1)],
    cache := [(1, some 0), (2, some 1)] }

theorem claim_C3_witness :
    (((destroy 6 1 wit0).1.nodes) 1).disposed = true
    ∧ (((destroy 6 1 wit0).1.nodes) 1).parent = Option.none
    ∧ (((destroy 6 1 wit0).1.nodes) 1).children = [] :=
  (claim_C3 4 wit0 1 (by decide)
    (destroy_list 5 (((wit0.nodes) 1).children) wit0).1
    (destroy_list 5 (((wit0.nodes) 1).children) wit0).2 rfl
    (rootOf 5 (destroy_list 5 (((wit0.nodes) 1).children) wit0).1 1).1
    (rootOf 5 (destroy_list 5 (((wit0.nodes) 1).children) wit0).1 1).2 rfl
    (by decide)).2


theorem alistGet_none_of_not_mem {β : Type} (l : List (Int × β)) (a : Int)
    (h : a ∉ l.map Prod.fst) : alistGet l a = Option.none := by
  induction l with
  | nil => rfl
  | cons e rest ih =>
    rcases e with ⟨k, v⟩
    simp only [List.map_cons, List.mem_cons] at h
    push_neg at h
    simp only [alistGet]
    rw [if_neg (by intro hh; exact h.1 hh.symm)]
    exact ih h.2

theorem alistPop_sublist {β : Type} (l : List (Int × β)) (k : Int) :
    List.Sublist (alistPop l k) l := by
  induction l with
  | nil => simp [alistPop]
  | cons e rest ih =>
    rcases e with ⟨k1, v⟩
    simp only [alistPop]
    by_cases h : k1 = k
    · rw [if_pos h]
      exact (List.Sublist.refl rest).cons (k1, v)
    · rw [if_neg h]
      exact List.Sublist.cons₂ (k1, v) ih

theorem alistGet_pop_none {β : Type} (l : List (Int × β)) (k a : Int)
    (h : alistGet l a = Option.none) :
    alistGet (alistPop l k) a = Option.none := by
  induction l with
  | nil => rfl
  | cons e rest ih =>
    rcases e with ⟨k1, v⟩
    simp only [alistGet] at h
    by_cases h1 : k1 = a
    · rw [if_pos h1] at h
      exact absurd h (by simp)
    · rw [if_neg h1] at h
      simp only [alistPop]
      by_cases h2 : k1 = k
      · rw [if_pos h2]
        exact h
      · rw [if_neg h2]
        simp only [alistGet]
        rw [if_neg h1]
        exact ih h

theorem alistGet_pop_self {β : Type} (l : List (Int × β)) (k : Int)
    (h : (l.map Prod.fst).Nodup) :
    alistGet (alistPop l k) k = Option.none := by
  induction l with
  | nil => rfl
  | cons e rest ih =>
    rcases e with ⟨k1, v⟩
    simp only [List.map_cons, List.nodup_cons] at h
    simp only [alistPop]
    by_cases h1 : k1 = k
    · rw [if_pos h1]
      exact alistGet_none_of_not_mem rest k (h1 ▸ h.1)
    · rw [if_neg h1]
      simp only [alistGet]
      rw [if_neg h1]
      exact ih h.2

/-- Facts preserved by every operation of the dispatch cycle (destroy,
post, pump, handle_message): the disposed flag never reverts, handler
cache entries are only removed (never added), node addresses are never
reassigned, and the bus owner never changes. -/
def Inv (w w' : World) : Prop :=
  (∀ n, ((w.nodes) n).disposed = true → ((w'.nodes) n).disposed = true)
  ∧ (∀ a, alistGet w.cache a = Option.none → alistGet w'.cache a = Option.none)
  ∧ (∀ n, ((w'.nodes) n).address = ((w.nodes) n).address)
  ∧ w'.busOwner = w.busOwner
  ∧ List.Sublist (w'.cache.map Prod.fst) (w.cache.map Prod.fst)

theorem Inv_refl (w : World) : Inv w w :=
  ⟨fun _ h => h, fun _ h => h, fun _ => rfl, rfl, List.Sublist.refl _⟩

theorem Inv_trans {a b c : World} (h1 : Inv a b) (h2 : Inv b c) : Inv a c := by
  obtain ⟨d1, c1, a1, b1, s1⟩ := h1
  obtain ⟨d2, c2, a2, b2, s2⟩ := h2
  exact ⟨fun n h => d2 n (d1 n h), fun x h => c2 x (c1 x h),
    fun n => (a2 n).trans (a1 n), b2.trans b1, s2.trans s1⟩

theorem inv_setNode (w : World) (id : NodeId) (g : Node → Node)
    (hd : ∀ nd, nd.disposed = true → (g nd).disposed = true)
    (ha : ∀ nd, (g nd).address = nd.address) :
    Inv w (setNode w id g) := by
  refine ⟨?_, fun a h => h, ?_, rfl, List.Sublist.refl _⟩
  · intro n h
    rw [setNode_nodes]
    by_cases hn : n = id
    · rw [if_pos hn]
      exact hd _ h
    · rw [if_neg hn]
      exact h
  · intro n
    rw [setNode_nodes]
    by_cases hn : n = id
    · rw [if_pos hn]
      exact ha _
    · rw [if_neg hn]

theorem inv_unregister (w : World) (id : NodeId) : Inv w (unregister w id) := by
  refine ⟨fun n h => h, ?_, fun n => rfl, rfl, ?_⟩
  · intro a h
    exact alistGet_pop_none _ _ _ h
  · exact (alistPop_sublist _ _).map _

theorem inv_of_core {w w' : World} (hc : nodesCoreEq w w') (hb : busEq w w') :
    Inv w w' := by
  refine ⟨?_, ?_, ?_, hb.1, ?_⟩
  · intro n h
    rw [(hc n).2.2.2.2.2.2.2.2.1]
    exact h
  · intro a h
    rw [hb.2.2.2.2.2.2]
    exact h
  · intro n
    exact (hc n).2.2.2.2.2.1
  · rw [hb.2.2.2.2.2.2]

theorem inv_reset (f : Nat) (id : NodeId) (w : World) : Inv w (reset f id w) :=
  inv_of_core (reset_coreEq f id w) (reset_busEq f id w)

theorem inv_reset_db (f : Nat) (r : Bool) (id : NodeId) (w : World) :
    Inv w (reset_db f r id w) :=
  inv_of_core (reset_db_coreEq f r id w) (reset_db_busEq f r id w)

theorem inv_rootOf (f : Nat) (w : World) (id : NodeId) :
    Inv w (rootOf f w id).1 :=
  inv_of_core (rootOf_coreEq f w id) (rootOf_busEq f w id)

theorem inv_removeE (f : Nat) (p c : NodeId) (w : World) :
    Inv w (removeE f p c w) := by
  unfold removeE
  by_cases h : c ∈ ((w.nodes) p).children
  · rw [if_pos h]
    simp only []
    exact Inv_trans (Inv_trans
      (inv_setNode w p (fun nd => { nd with children := nd.children.erase c })
        (fun nd hh => hh) (fun nd => rfl))
      (inv_setNode _ c (fun nd => { nd with parent := Option.none })
        (fun nd hh => hh) (fun nd => rfl)))
      (inv_of_core (reset_coreEq f p _) (reset_busEq f p _))
  · rw [if_neg h]
    exact Inv_refl w

theorem inv_busKeep {w w' : World} (hn : w'.nodes = w.nodes)
    (hc : w'.cache = w.cache) (hb : w'.busOwner = w.busOwner) : Inv w w' := by
  refine ⟨?_, ?_, ?_, hb, ?_⟩
  · intro n h
    rw [hn]
    exact h
  · intro a h
    rw [hc]
    exact h
  · intro n
    rw [hn]
  · rw [hc]

theorem inv_queue (w : World) (q : List Packet) : Inv w { w with queue := q } :=
  ⟨fun _ h => h, fun _ h => h, fun _ => rfl, rfl, List.Sublist.refl _⟩

theorem inv_processed (w : World) (p : Int) : Inv w { w with processed := p } :=
  ⟨fun _ h => h, fun _ h => h, fun _ => rfl, rfl, List.Sublist.refl _⟩

theorem master_inv : ∀ f : Nat,
    (∀ id w, Inv w (destroy f id w).1)
    ∧ (∀ id recv rs d prio w, Inv w (post f id recv rs d prio w).1)
    ∧ (∀ w, Inv w (pump f w).1)
    ∧ (∀ w msg, Inv w (pump_msg f w msg).1)
    ∧ (∀ id msg w, Inv w (handle_message f id msg w).1) := by
  intro f
  induction f with
  | zero =>
    exact ⟨fun id w => Inv_refl w, fun a b c d e w => Inv_refl w,
      fun w => Inv_refl w, fun w m => Inv_refl w, fun i m w => Inv_refl w⟩
  | succ f ih =>
    obtain ⟨ihD, ihP, ihPu, ihPm, ihH⟩ := ih
    refine ⟨?_, ?_, ?_, ?_, ?_⟩
    · intro id w
      rw [destroy.eq_2]
      by_cases hd : ((w.nodes) id).disposed = true
      · rw [if_pos hd]
        exact Inv_refl w
      · rw [if_neg hd]
        simp only []
        refine Inv_trans ?_ (inv_setNode _ id
          (fun nd => { nd with children := ([] : List NodeId), parent := Option.none })
          (fun nd h => h) (fun nd => rfl))
        split
        · refine Inv_trans ?_ (inv_removeE _ _ _ _)
          refine Inv_trans ?_ (inv_setNode _ id
            (fun nd => { nd with disposed := true }) (fun nd h => rfl) (fun nd => rfl))
          refine Inv_trans ?_ (ihP _ _ _ _ _ _)
          split
          · refine Inv_trans ?_ (inv_unregister _ _)
            refine Inv_trans ?_ (inv_rootOf _ _ _)
            exact foldl_projRel Inv (fun h1 h2 => Inv_trans h1 h2) Inv_refl
              Prod.fst
              (fun acc c => ((destroy f c acc.1).1, acc.2 ++ (destroy f c acc.1).2))
              (fun s a => ihD a s.1) (((w.nodes) id).children)
              ((w, ([] : List Ev)))
          · refine Inv_trans ?_ (inv_rootOf _ _ _)
            exact foldl_projRel Inv (fun h1 h2 => Inv_trans h1 h2) Inv_refl
              Prod.fst
              (fun acc c => ((destroy f c acc.1).1, acc.2 ++ (destroy f c acc.1).2))
              (fun s a => ihD a s.1) (((w.nodes) id).children)
              ((w, ([] : List Ev)))
        · refine Inv_trans ?_ (inv_setNode _ _ _ (fun nd h => rfl) (fun nd => rfl))
          refine Inv_trans ?_ (ihP _ _ _ _ _ _)
          split
          · refine Inv_trans ?_ (inv_unregister _ _)
            refine Inv_trans ?_ (inv_rootOf _ _ _)
            exact foldl_projRel Inv (fun h1 h2 => Inv_trans h1 h2) Inv_refl
              Prod.fst
              (fun acc c => ((destroy f c acc.1).1, acc.2 ++ (destroy f c acc.1).2))
              (fun s a => ihD a s.1) (((w.nodes) id).children)
              ((w, ([] : List Ev)))
          · refine Inv_trans ?_ (inv_rootOf _ _ _)
            exact foldl_projRel Inv (fun h1 h2 => Inv_trans h1 h2) Inv_refl
              Prod.fst
              (fun acc c => ((destroy f c acc.1).1, acc.2 ++ (destroy f c acc.1).2))
              (fun s a => ihD a s.1) (((w.nodes) id).children)
              ((w, ([] : List Ev)))
    · intro id recv rs d prio w
      rw [post.eq_2]
      simp only []
      split
      · split
        · refine Inv_trans (inv_rootOf f w id) (Inv_trans ?_ (ihPu _))
          exact inv_busKeep rfl rfl rfl
        · refine Inv_trans (inv_rootOf f w id) ?_
          exact inv_busKeep rfl rfl rfl
      · exact inv_rootOf f w id
    · intro w
      rw [pump.eq_2]
      by_cases hq : w.queue = []
      · rw [if_pos hq]
        exact Inv_refl w
      · rw [if_neg hq]
        simp only []
        split
        · refine Inv_trans (inv_queue w []) (Inv_trans
            (foldl_projRel Inv (fun h1 h2 => Inv_trans h1 h2) Inv_refl
              Prod.fst
              (fun acc msg => ((pump_msg f acc.1 msg).1,
                acc.2.1 + (pump_msg f acc.1 msg).2.1,
                acc.2.2 ++ (pump_msg f acc.1 msg).2.2))
              (fun s a => ihPm s.1 a) w.queue
              (({ w with queue := [] }, 0, ([] : List Ev))))
            (inv_busKeep rfl rfl rfl))
        · refine Inv_trans (inv_queue w []) (Inv_trans
            (foldl_projRel Inv (fun h1 h2 => Inv_trans h1 h2) Inv_refl
              Prod.fst
              (fun acc msg => ((pump_msg f acc.1 msg).1,
                acc.2.1 + (pump_msg f acc.1 msg).2.1,
                acc.2.2 ++ (pump_msg f acc.1 msg).2.2))
              (fun s a => ihPm s.1 a) w.queue
              (({ w with queue := [] }, 0, ([] : List Ev))))
            (inv_busKeep rfl rfl rfl))
    · intro w msg
      rw [pump_msg.eq_2]
      split
      · refine foldl_projRel Inv (fun h1 h2 => Inv_trans h1 h2) Inv_refl
          Prod.fst
          (fun (acc : World × Nat × List Ev) (entry : Int × Option NodeId) =>
            match entry.2 with
            | some hid =>
              ((handle_message f hid msg acc.1).1, acc.2.1 + 1,
                acc.2.2 ++ (Ev.delivered entry.1 msg :: (handle_message f hid msg acc.1).2))
            | Option.none => acc)
          ?_ w.cache ((w, 0, ([] : List Ev)))
        intro s a
        rcases a with ⟨addr, hv⟩
        cases hv with
        | none => exact Inv_refl _
        | some hid => exact ihH hid msg s.1
      · split
        · exact ihH _ msg w
        · exact Inv_refl w
        · exact Inv_refl w
    · intro id msg w
      rw [handle_message.eq_2]
      split
      · exact Inv_refl w
      · split
        · exact ihP _ _ _ _ _ _
        · split
          · rename_i d heq
            exact inv_setNode w id
              (fun nd => { nd with store := alistUpdate nd.store d })
              (fun nd h => h) (fun nd => rfl)
          · exact Inv_refl w
        · split
          · rename_i d heq
            exact inv_setNode w id
              (fun nd => { nd with store := alistUpdate nd.store d })
              (fun nd h => h) (fun nd => rfl)
          · exact Inv_refl w
        · exact inv_reset _ _ _
        · exact ihD _ _
        · exact inv_reset_db _ _ _ _
        · exact Inv_refl w

theorem pump_msg_skip (f : Nat) (w : World) (pkt : Packet)
    (h1 : pkt.receiver ≠ BROADCAST)
    (h2 : alistGet w.cache pkt.receiver = Option.none) :
    pump_msg f w pkt = (w, 0, []) := by
  cases f with
  | zero => rfl
  | succ f =>
    rw [pump_msg.eq_2]
    rw [if_neg h1]
    simp only [h2]

theorem removeE_cacheEq (f : Nat) (p c : NodeId) (w : World) :
    (removeE f p c w).cache = w.cache := by
  unfold removeE
  by_cases h : c ∈ ((w.nodes) p).children
  · rw [if_pos h]
    simp only []
    rw [(reset_busEq f p _).2.2.2.2.2.2]
    rfl
  · rw [if_neg h]

/-- Claim C4: after destroy, delivering any further message to the
destroyed node's address is a no-op. Three facts combine: (a) the
disposed guard makes handle_message on a disposed node leave the world
untouched — this covers the detached case where a stale handler may
remain cached; (b) pump skips a unicast receiver with no cached handler,
touching no node and counting no delivery; and (c) destroy on a
bus-connected node (with a duplicate-free cache) removes the cache entry
for the node's address, and the entry stays absent through the DISPOSED
broadcast, so the address no longer resolves to a live handler. -/
theorem claim_C4 :
    (∀ (f : Nat) (id : NodeId) (msg : Packet) (w : World),
        ((w.nodes) id).disposed = true → handle_message (f + 1) id msg w = (w, []))
    ∧ (∀ (f : Nat) (w : World) (pkt : Packet), pkt.receiver ≠ BROADCAST →
        alistGet w.cache pkt.receiver = Option.none →
        (pump (f + 1) { w with queue := [pkt] }).1.nodes = w.nodes
        ∧ (pump (f + 1) { w with queue := [pkt] }).2.1 = 0)
    ∧ (∀ (f : Nat) (w : World) (id : NodeId),
        ((w.nodes) id).disposed = false →
        ∀ (w1 : World) (tr1 : List Ev),
        destroy_list (f + 1) (((w.nodes) id).children) w = (w1, tr1) →
        ∀ (wA : World) (rt : NodeId), rootOf (f + 1) w1 id = (wA, rt) →
        wA.busOwner = some rt →
        (w.cache.map Prod.fst).Nodup →
        alistGet ((destroy (f + 2) id w).1.cache) (((w.nodes) id).address)
          = Option.none) := by
  refine ⟨?_, ?_, ?_⟩
  · intro f id msg w h
    rw [handle_message.eq_2]
    rw [if_pos (Or.inl h)]
  · intro f w pkt h1 h2
    rw [pump.eq_2]
    rw [if_neg (by simp : ¬({ w with queue := [pkt] } : World).queue = [])]
    simp only [List.foldl_cons, List.foldl_nil]
    rw [pump_msg_skip f { w with queue := [] } pkt h1 h2]
    constructor
    · split
      · rfl
      · rfl
    · rfl
  · intro f w id h0 w1 tr1 hr1 wA rt hpr hconn hnodup
    simp only [destroy_list] at hr1
    have hInvFold : Inv w (List.foldl
        (fun acc c => ((destroy (f + 1) c acc.1).1, acc.2 ++ (destroy (f + 1) c acc.1).2))
        ((w, []) : World × List Ev) (((w.nodes) id).children)).1 :=
      foldl_projRel Inv (fun h1 h2 => Inv_trans h1 h2) Inv_refl Prod.fst
        (fun acc c => ((destroy (f + 1) c acc.1).1, acc.2 ++ (destroy (f + 1) c acc.1).2))
        (fun s a => (master_inv (f + 1)).1 a s.1) (((w.nodes) id).children)
        ((w, ([] : List Ev)))
    rw [hr1] at hInvFold
    have hInvA : Inv w wA := by
      have h := inv_rootOf (f + 1) w1 id
      rw [hpr] at h
      exact Inv_trans hInvFold h
    have haddr : ((wA.nodes) id).address = ((w.nodes) id).address := hInvA.2.2.1 id
    have hnodupA : (wA.cache.map Prod.fst).Nodup :=
      hInvA.2.2.2.2.nodup hnodup
    have hgone : alistGet ((unregister wA id).cache) (((w.nodes) id).address)
        = Option.none := by
      show alistGet (alistPop wA.cache ((wA.nodes) id).address) _ = Option.none
      rw [haddr] at *
      exact alistGet_pop_self _ _ hnodupA
    have hInvPost : Inv (unregister wA id)
        (post (f + 1) id BROADCAST Response.R_DISPOSED (PData.element id) true
          (unregister wA id)).1 :=
      (master_inv (f + 1)).2.1 id BROADCAST Response.R_DISPOSED (PData.element id)
        true (unregister wA id)
    have hafter : alistGet ((post (f + 1) id BROADCAST Response.R_DISPOSED
        (PData.element id) true (unregister wA id)).1.cache)
        (((w.nodes) id).address) = Option.none :=
      hInvPost.2.1 _ hgone
    have hx : ¬ ((w.nodes) id).disposed = true := by simp [h0]
    have hmain := destroy.eq_2 id w (f + 1)
    rw [if_neg hx] at hmain
    simp only [hr1, hpr, hconn, eq_self_iff_true, if_true] at hmain
    rw [hmain]
    show alistGet ((setNode _ id _).cache) _ = Option.none
    have hsn : ∀ (v : World) (g : Node → Node), (setNode v id g).cache = v.cache :=
      fun v g => rfl
    rw [hsn]
    split
    · rw [removeE_cacheEq, hsn]
      exact hafter
    · rw [hsn]
      exact hafter

/-- World with a disposed node 1, for the C4 witness. -/
def witD : World :=
  { wit0 with nodes := fun j =>
      if j = 1 then { defNode with disposed := true } else (wit0.nodes) j }

/-- Unicast packet to an address with no cached handler, for the C4
witness. -/
def pkt9 : Packet := ⟨9, 1, Response.R_GET, PData.none⟩

theorem claim_C4_witness :
    handle_message 4 1 ⟨1, 2, Response.R_GET, PData.none⟩ witD = (witD, [])
    ∧ ((pump 4 { wit0 with queue := [pkt9] }).1.nodes = wit0.nodes
        ∧ (pump 4 { wit0 with queue := [pkt9] }).2.1 = 0)
    ∧ alistGet ((destroy 6 1 wit0).1.cache) (((wit0.nodes) 1).address)
        = Option.none :=
  ⟨claim_C4.1 3 1 ⟨1, 2, Response.R_GET, PData.none⟩ witD (by decide),
   claim_C4.2.1 3 wit0 pkt9 (by decide) (by decide),
   claim_C4.2.2 4 wit0 1 (by decide)
     (destroy_list 5 (((wit0.nodes) 1).children) wit0).1
     (destroy_list 5 (((wit0.nodes) 1).children) wit0).2 rfl
     (rootOf 5 (destroy_list 5 (((wit0.nodes) 1).children) wit0).1 1).1
     (rootOf 5 (destroy_list 5 (((wit0.nodes) 1).children) wit0).1 1).2 rfl
     (by decide) (by decide)⟩


/-- Pointwise equality of the disposed flags of two worlds. -/
def DispEq (w w' : World) : Prop :=
  ∀ n, ((w'.nodes) n).disposed = ((w.nodes) n).disposed

theorem DispEq_refl (w : World) : DispEq w w := fun _ => rfl

theorem DispEq_trans {a b c : World} (h1 : DispEq a b) (h2 : DispEq b c) :
    DispEq a c := fun n => (h2 n).trans (h1 n)

theorem dispEq_of_core {w w' : World} (h : nodesCoreEq w w') : DispEq w w' :=
  fun n => (h n).2.2.2.2.2.2.2.2.1

theorem setNode_dispEq (w : World) (id : NodeId) (g : Node → Node)
    (hg : ∀ nd, (g nd).disposed = nd.disposed) : DispEq w (setNode w id g) := by
  intro n
  rw [setNode_nodes]
  by_cases h : n = id
  · rw [if_pos h]
    exact hg _
  · rw [if_neg h]

theorem update_depth_dispEq (f : Nat) (id : NodeId) (nd : Int) (w : World) :
    DispEq w (update_depth f id nd w) := by
  induction f generalizing id nd w with
  | zero => exact DispEq_refl w
  | succ f ih =>
    rw [update_depth.eq_2]
    refine DispEq_trans
      (setNode_dispEq w id (fun n => { n with depth := nd }) (fun x => rfl)) ?_
    exact foldl_projRel DispEq (fun h1 h2 => DispEq_trans h1 h2) DispEq_refl
      (fun v => v)
      (fun acc c => update_depth f c
        (((acc.nodes) c).depth + (nd - ((w.nodes) id).depth)) acc)
      (fun s a => ih a _ s)
      (((setNode w id (fun n => { n with depth := nd })).nodes id).children)
      (setNode w id (fun n => { n with depth := nd }))

theorem register_dispEq (w : World) (id : NodeId) : DispEq w (register w id) := by
  unfold register
  simp only []
  split
  · intro n
    show (((setNode w id (fun nd => { nd with address := w.next_addr })).nodes) n).disposed
        = ((w.nodes) n).disposed
    rw [setNode_nodes]
    by_cases h : n = id
    · rw [if_pos h]
    · rw [if_neg h]
  · exact DispEq_refl w

theorem reset_dispEq (f : Nat) (id : NodeId) (w : World) : DispEq w (reset f id w) :=
  dispEq_of_core (reset_coreEq f id w)

theorem reset_graphics_dispEq (f : Nat) (r : Bool) (id : NodeId) (w : World) :
    DispEq w (reset_graphics f r id w) :=
  dispEq_of_core (reset_graphics_coreEq f r id w)

theorem reset_db_dispEq (f : Nat) (r : Bool) (id : NodeId) (w : World) :
    DispEq w (reset_db f r id w) :=
  dispEq_of_core (reset_db_coreEq f r id w)

theorem rootOf_dispEq (f : Nat) (w : World) (id : NodeId) :
    DispEq w (rootOf f w id).1 :=
  dispEq_of_core (rootOf_coreEq f w id)

theorem addE_dispEq (f : Nat) (p c : NodeId) (w : World) : DispEq w (addE f p c w) := by
  unfold addE
  split
  · exact DispEq_refl w
  · split
    · simp only []
      split
      · refine DispEq_trans ?_ (register_dispEq _ c)
        refine DispEq_trans ?_ (rootOf_dispEq f _ p)
        refine DispEq_trans ?_ (reset_dispEq f p _)
        refine DispEq_trans ?_ (update_depth_dispEq f c _ _)
        refine DispEq_trans ?_ (setNode_dispEq
          (setNode w p (fun nd => { nd with children := nd.children ++ [c] })) c
          (fun nd => { nd with parent := some p }) (fun x => rfl))
        exact setNode_dispEq w p
          (fun nd => { nd with children := nd.children ++ [c] }) (fun x => rfl)
      · refine DispEq_trans ?_ (rootOf_dispEq f _ p)
        refine DispEq_trans ?_ (reset_dispEq f p _)
        refine DispEq_trans ?_ (update_depth_dispEq f c _ _)
        refine DispEq_trans ?_ (setNode_dispEq
          (setNode w p (fun nd => { nd with children := nd.children ++ [c] })) c
          (fun nd => { nd with parent := some p }) (fun x => rfl))
        exact setNode_dispEq w p
          (fun nd => { nd with children := nd.children ++ [c] }) (fun x => rfl)
    · exact DispEq_refl w

theorem removeE_dispEq (f : Nat) (p c : NodeId) (w : World) :
    DispEq w (removeE f p c w) :=
  fun n => removeE_disposed f p c w n

theorem front_dispEq (f : Nat) (id : NodeId) (w : World) :
    DispEq w (bring_to_front f id w) := by
  unfold bring_to_front
  split
  · exact DispEq_refl w
  · split
    · refine DispEq_trans ?_ (reset_dispEq f _ _)
      exact setNode_dispEq w _
        (fun nd => { nd with children := nd.children.erase id ++ [id] }) (fun x => rfl)
    · exact DispEq_refl w

theorem back_dispEq (f : Nat) (id : NodeId) (w : World) :
    DispEq w (send_to_back f id w) := by
  unfold send_to_back
  split
  · exact DispEq_refl w
  · split
    · refine DispEq_trans ?_ (reset_dispEq f _ _)
      exact setNode_dispEq w _
        (fun nd => { nd with children := id :: nd.children.erase id }) (fun x => rfl)
    · exact DispEq_refl w

theorem setter_dispEq (f : Nat) (id : NodeId) (w : World) (g : Node → Node)
    (hg : ∀ nd, (g nd).disposed = nd.disposed) :
    DispEq w (reset f id (reset_graphics f true id (setNode w id g))) :=
  DispEq_trans (setNode_dispEq w id g hg)
    (DispEq_trans (reset_graphics_dispEq f true id _) (reset_dispEq f id _))

/-- The disposed flag is monotonic under every public operation of the
model: once a node is disposed, no operation un-disposes it. -/
theorem exec_disposed_mono (f : Nat) (op : Op) (w : World) (n : NodeId)
    (h : ((w.nodes) n).disposed = true) :
    (((exec f op w).nodes) n).disposed = true := by
  cases op with
  | add p c =>
    simp only [exec]
    rw [(addE_dispEq f p c w) n]; exact h
  | remove p c =>
    simp only [exec]
    rw [(removeE_dispEq f p c w) n]; exact h
  | destroyOp id =>
    simp only [exec]
    exact ((master_inv f).1 id w).1 n h
  | handle id msg =>
    simp only [exec]
    exact ((master_inv f).2.2.2.2 id msg w).1 n h
  | pumpOp =>
    simp only [exec]
    exact ((master_inv f).2.2.1 w).1 n h
  | postOp id recv rs d prio =>
    simp only [exec]
    exact ((master_inv f).2.1 id recv rs d prio w).1 n h
  | setXOp id v =>
    simp only [exec, setX]
    rw [(setter_dispEq f id w
      (fun nd => { nd with rect := { nd.rect with x := v } }) (fun x => rfl)) n]
    exact h
  | setYOp id v =>
    simp only [exec, setY]
    rw [(setter_dispEq f id w
      (fun nd => { nd with rect := { nd.rect with y := v } }) (fun x => rfl)) n]
    exact h
  | setWidthOp id v =>
    simp only [exec, setWidth]
    rw [(setter_dispEq f id w
      (fun nd => { nd with rect := { nd.rect with w := max 1 v } }) (fun x => rfl)) n]
    exact h
  | setHeightOp id v =>
    simp only [exec, setHeight]
    rw [(setter_dispEq f id w
      (fun nd => { nd with rect := { nd.rect with h := max 1 v } }) (fun x => rfl)) n]
    exact h
  | setPositionOp id vx vy =>
    simp only [exec, setPosition]
    rw [(setter_dispEq f id w
      (fun nd => { nd with rect := { nd.rect with x := vx, y := vy } }) (fun x => rfl)) n]
    exact h
  | setSizeOp id vx vy =>
    simp only [exec, setSize]
    rw [(setter_dispEq f id w
      (fun nd => { nd with rect := { nd.rect with w := max 1 vx, h := max 1 vy } })
      (fun x => rfl)) n]
    exact h
  | resetOp id =>
    simp only [exec]
    rw [(reset_dispEq f id w) n]; exact h
  | resetDbOp r id =>
    simp only [exec]
    rw [(reset_db_dispEq f r id w) n]; exact h
  | registerOp id =>
    simp only [exec]
    rw [(register_dispEq w id) n]; exact h
  | unregisterOp id =>
    simp only [exec]
    exact h
  | frontOp id =>
    simp only [exec]
    rw [(front_dispEq f id w) n]; exact h
  | backOp id =>
    simp only [exec]
    rw [(back_dispEq f id w) n]; exact h
  | clearOp =>
    simp only [exec]
    exact h


/-- Counterexample to claim C7 as stated: destroy node 0, then call add
on the disposed node — the add guards do not check the disposed flag, so
the disposed node acquires a child again, violating the alleged invariant
that a disposed node has no children after any sequence of public
operations. -/
theorem claim_C7_cex :
    (((exec 6 (Op.add 0 2) (exec 6 (Op.destroyOp 0) wit0)).nodes) 0).disposed = true
    ∧ (((exec 6 (Op.add 0 2) (exec 6 (Op.destroyOp 0) wit0)).nodes) 0).children = [2] := by
  decide

/-- Claim C7 as amended: the disposed flag is monotonic — no public
operation ever resets it to false — and destroy itself leaves the
destroyed node with no parent and no children; however the
no-children/no-parent property of a disposed node is not an invariant of
arbitrary operation sequences, because add does not check the disposed
flag (see the counterexample). -/
theorem claim_C7_amended :
    (∀ (f : Nat) (op : Op) (w : World) (n : NodeId),
        ((w.nodes) n).disposed = true → (((exec f op w).nodes) n).disposed = true)
    ∧ (∀ (f : Nat) (id : NodeId) (w : World), ((w.nodes) id).disposed = false →
        (((destroy (f + 1) id w).1.nodes) id).disposed = true
        ∧ (((destroy (f + 1) id w).1.nodes) id).parent = Option.none
        ∧ (((destroy (f + 1) id w).1.nodes) id).children = []) := by
  constructor
  · exact exec_disposed_mono
  · intro f id w h0
    have hx : ¬ ((w.nodes) id).disposed = true := by simp [h0]
    have hmain := destroy.eq_2 id w f
    rw [if_neg hx] at hmain
    refine ⟨?_, ?_, ?_⟩ <;> rw [hmain]
    · simp [setNode_nodes]
      split
      · rw [removeE_disposed]
        simp [setNode_nodes]
      · simp [setNode_nodes]
    · simp [setNode_nodes]
    · simp [setNode_nodes]

theorem claim_C7_witness :
    (((exec 3 (Op.resetOp 1) witD).nodes) 1).disposed = true
    ∧ ((((destroy 4 1 wit0).1.nodes) 1).disposed = true
        ∧ (((destroy 4 1 wit0).1.nodes) 1).parent = Option.none
        ∧ (((destroy 4 1 wit0).1.nodes) 1).children = []) :=
  ⟨claim_C7_amended.1 3 (Op.resetOp 1) witD 1 (by decide),
   claim_C7_amended.2 3 1 wit0 (by decide)⟩



/-- True exactly when a dictionary value embeds a live element object. -/
def MValue.isNode : MValue → Bool
  | MValue.node _ => true
  | _ => false

/-- Claim C8: a node registered at address 1 under a bus-connected root
that receives, in one pump, a GET message from address 2 responds with
exactly one DATA message enqueued to receiver 2 with sender 1, whose
payload is the metadata snapshot: it contains address=1, the rect
fields, the flags, the child count, the ordered child addresses, and the
parent address (when a parent exists) as an address only — no value of
the dictionary embeds a node object. -/
theorem claim_C8 (f : Nat) (w : World) (n : NodeId) (rt : NodeId) (d0 : PData)
    (hq : w.queue = [⟨1, 2, Response.R_GET, d0⟩])
    (hc1 : alistGet w.cache (1 : Int) = some (some n))
    (haddr : ((w.nodes) n).address = 1)
    (hdisp : ((w.nodes) n).disposed = false)
    (hcache : ((w.nodes) n).cache = some rt)
    (hconn : w.busOwner = some rt) :
    (pump (f + 4) w).1.queue
      = [⟨2, 1, Response.R_DATA, PData.dict (get_metadata w n)⟩]
    ∧ (pump (f + 4) w).2.1 = 1
    ∧ ("address", MValue.int 1) ∈ get_metadata w n
    ∧ ("x", MValue.int ((w.nodes) n).rect.x) ∈ get_metadata w n
    ∧ ("width", MValue.int ((w.nodes) n).rect.w) ∈ get_metadata w n
    ∧ ("length", MValue.int (((w.nodes) n).children.length : Int)) ∈ get_metadata w n
    ∧ ("container", MValue.ids (((w.nodes) n).children.map
        (fun c => ((w.nodes) c).address))) ∈ get_metadata w n
    ∧ (∀ p, ((w.nodes) n).parent = some p →
        ("parent:address", MValue.int (((w.nodes) p).address)) ∈ get_metadata w n)
    ∧ (((get_metadata w n).map Prod.snd).all
        (fun v => !(MValue.isNode v))) = true := by
  have hpost : post (f + 1) n 2 Response.R_DATA
      (PData.dict (get_metadata w n)) false ({ w with queue := [] } : World)
      = ({ w with queue := [⟨2, 1, Response.R_DATA, PData.dict (get_metadata w n)⟩] },
         [Ev.posted ⟨2, 1, Response.R_DATA, PData.dict (get_metadata w n)⟩]) := by
    rw [post.eq_2]
    rw [rootOf_hit f ({ w with queue := [] } : World) n rt hcache]
    rw [if_pos hconn]
    simp [haddr]
  have hhm : handle_message (f + 2) n ⟨1, 2, Response.R_GET, d0⟩
      ({ w with queue := [] } : World)
      = post (f + 1) n 2 Response.R_DATA (PData.dict (get_metadata w n)) false
          ({ w with queue := [] } : World) := by
    rw [handle_message.eq_2]
    rw [if_neg (by simp [hdisp, haddr] :
      ¬((({ w with queue := [] } : World).nodes n).disposed = true
        ∨ (2 : Int) = (({ w with queue := [] } : World).nodes n).address))]
    rfl
  have hpm : pump_msg (f + 3) ({ w with queue := [] } : World) ⟨1, 2, Response.R_GET, d0⟩
      = (({ w with queue := [⟨2, 1, Response.R_DATA, PData.dict (get_metadata w n)⟩] } : World),
          1, [Ev.delivered 1 ⟨1, 2, Response.R_GET, d0⟩,
              Ev.posted ⟨2, 1, Response.R_DATA, PData.dict (get_metadata w n)⟩]) := by
    rw [pump_msg.eq_2]
    rw [if_neg (by decide : ¬((1 : Int) = BROADCAST))]
    simp only [hc1]
    rw [hhm, hpost]
  refine ⟨?_, ?_, ?_, ?_, ?_, ?_, ?_, ?_, ?_⟩
  · rw [pump.eq_2]
    rw [if_neg (by rw [hq]; simp)]
    rw [hq]
    simp only [List.foldl_cons, List.foldl_nil]
    rw [hpm]
    simp only []
    split
    · simp [cleanupW]
    · simp
  · rw [pump.eq_2]
    rw [if_neg (by rw [hq]; simp)]
    rw [hq]
    simp only [List.foldl_cons, List.foldl_nil]
    rw [hpm]
    rfl
  · unfold get_metadata
    rcases hp : ((w.nodes) n).parent with _ | p <;> simp [hp, haddr]
  · unfold get_metadata
    rcases hp : ((w.nodes) n).parent with _ | p <;> simp [hp]
  · unfold get_metadata
    rcases hp : ((w.nodes) n).parent with _ | p <;> simp [hp]
  · unfold get_metadata
    rcases hp : ((w.nodes) n).parent with _ | p <;> simp [hp]
  · unfold get_metadata
    rcases hp : ((w.nodes) n).parent with _ | p <;> simp [hp]
  · intro p hp
    unfold get_metadata
    simp [hp]
  · unfold get_metadata
    rcases hp : ((w.nodes) n).parent with _ | p <;> simp [hp, MValue.isNode]


/-- Witness world for claim C8: the root (node 0, address 1, root memo
cached) receives a GET from address 2. -/
def wit8 : World :=
  { wit0 with
      queue := [⟨1, 2, Response.R_GET, PData.none⟩]
      nodes := fun j =>
        if j = 0 then { (wit0.nodes) 0 with cache := some 0 }
        else (wit0.nodes) j }

theorem claim_C8_witness :
    (pump 4 wit8).1.queue
      = [⟨2, 1, Response.R_DATA, PData.dict (get_metadata wit8 0)⟩]
    ∧ (pump 4 wit8).2.1 = 1 :=
  ⟨(claim_C8 0 wit8 0 0 PData.none rfl (by decide) (by decide) (by decide)
      (by decide) (by decide)).1,
   (claim_C8 0 wit8 0 0 PData.none rfl (by decide) (by decide) (by decide)
      (by decide) (by decide)).2.1⟩



/-- Strict descendant relation along the children lists. -/
inductive Desc (w : World) : NodeId → NodeId → Prop
  | base {p c : NodeId} : c ∈ ((w.nodes) p).children → Desc w p c
  | step {p q c : NodeId} : Desc w p q → c ∈ ((w.nodes) q).children → Desc w p c

/-- The subtree below a node is finite with height below the bound. -/
inductive SubFin (w : World) : NodeId → Nat → Prop
  | mk {id : NodeId} {k : Nat} :
      (∀ c ∈ ((w.nodes) id).children, SubFin w c k) → SubFin w id (k + 1)

/-- Two worlds with identical children lists everywhere. -/
def sameKids (w w' : World) : Prop :=
  ∀ n, ((w'.nodes) n).children = ((w.nodes) n).children

theorem sameKids_of_core {w w' : World} (h : nodesCoreEq w w') : sameKids w w' :=
  fun n => (h n).2.2.2.2.1

theorem sameKids_trans {a b c : World} (h1 : sameKids a b) (h2 : sameKids b c) :
    sameKids a c := fun n => (h2 n).trans (h1 n)

theorem SubFin_transfer {w w' : World} (h : sameKids w w') :
    ∀ {id k}, SubFin w id k → SubFin w' id k := by
  intro id k hs
  induction hs with
  | mk hc ih =>
    rename_i id k
    exact SubFin.mk (fun c hcmem => ih c (by rw [h id] at hcmem; exact hcmem))

theorem Desc_transfer {w w' : World} (h : sameKids w w') :
    ∀ {p c}, Desc w p c → Desc w' p c := by
  intro p c hd
  induction hd with
  | base hm => exact Desc.base (by rw [h]; assumption)
  | step hd hm ih => exact Desc.step ih (by rw [h]; assumption)

theorem Desc_decomp {w : World} {id m : NodeId} (h : Desc w id m) :
    ∃ c ∈ ((w.nodes) id).children, (m = c ∨ Desc w c m) := by
  induction h with
  | base hm => exact ⟨_, hm, Or.inl rfl⟩
  | step hd hm ih =>
    obtain ⟨c, hcmem, hc⟩ := ih
    refine ⟨c, hcmem, Or.inr ?_⟩
    rcases hc with h1 | h1
    · rw [h1] at hm
      exact Desc.base hm
    · exact Desc.step h1 hm

/-- Relation: every node whose draw cache is already cleared stays
cleared. -/
def CacheRMono (w w' : World) : Prop :=
  ∀ n, ((w.nodes) n).cache_r = Option.none → ((w'.nodes) n).cache_r = Option.none

theorem CacheRMono_refl (w : World) : CacheRMono w w := fun _ h => h

theorem CacheRMono_trans {a b c : World} (h1 : CacheRMono a b)
    (h2 : CacheRMono b c) : CacheRMono a c := fun n h => h2 n (h1 n h)

theorem rg_cacheRMono (f : Nat) (r : Bool) (id : NodeId) (w : World) :
    CacheRMono w (reset_graphics f r id w) := by
  induction f generalizing r id w with
  | zero => exact CacheRMono_refl w
  | succ f ih =>
    rw [reset_graphics.eq_2]
    have hstep : CacheRMono w (setNode w id
        (fun n => { n with redraw := true, cache_r := Option.none })) := by
      intro n h
      rw [setNode_nodes]
      by_cases hn : n = id
      · rw [if_pos hn]
      · rw [if_neg hn]
        exact h
    cases r with
    | false => simpa using hstep
    | true =>
      simp only [if_true]
      refine CacheRMono_trans hstep ?_
      exact foldl_projRel CacheRMono (fun h1 h2 => CacheRMono_trans h1 h2)
        CacheRMono_refl (fun v => v)
        (fun acc c => reset_graphics f true c acc)
        (fun s a => ih true a s) _ _

theorem reset_cacheRMono (f : Nat) (id : NodeId) (w : World) :
    CacheRMono w (reset f id w) := by
  induction f generalizing id w with
  | zero => exact CacheRMono_refl w
  | succ f ih =>
    rw [reset.eq_2]
    have hstep : ∀ (v : World), CacheRMono v (setNode v id
        (fun n => { n with cache := Option.none })) := by
      intro v n h
      rw [setNode_nodes]
      by_cases hn : n = id
      · rw [if_pos hn]
        exact h
      · rw [if_neg hn]
        exact h
    refine CacheRMono_trans (rg_cacheRMono (f + 1) false id w) ?_
    refine CacheRMono_trans (hstep _) ?_
    exact foldl_projRel CacheRMono (fun h1 h2 => CacheRMono_trans h1 h2)
      CacheRMono_refl (fun v => v) (fun acc c => reset f c acc)
      (fun s a => ih a s) _ _

/-- With enough fuel, a recursive graphics reset clears the draw cache of
the node and of every descendant. -/
theorem rg_clears : ∀ (k f : Nat) (w : World) (id : NodeId),
    SubFin w id k → k ≤ f →
    ∀ m, (m = id ∨ Desc w id m) →
    (((reset_graphics f true id w).nodes) m).cache_r = Option.none := by
  intro k
  induction k with
  | zero =>
    intro f w id hsub
    cases hsub
  | succ k ih =>
    intro f w id hsub hkle m hm
    cases hsub with
    | mk hc =>
      rcases f with _ | f'
      · omega
      · have hk' : k ≤ f' := by omega
        rw [reset_graphics.eq_2]
        simp only [if_true]
        have hw1 : sameKids w (setNode w id
            (fun n => { n with redraw := true, cache_r := Option.none })) := by
          intro n
          rw [setNode_nodes]
          by_cases hn : n = id
          · rw [if_pos hn]
          · rw [if_neg hn]
        have foldlem : ∀ (cs : List NodeId) (acc : World), sameKids w acc →
            (∀ c ∈ cs, SubFin w c k) →
            ∀ m', (((acc.nodes) m').cache_r = Option.none
                ∨ ∃ c, c ∈ cs ∧ (m' = c ∨ Desc w c m')) →
            ((List.foldl (fun a c => reset_graphics f' true c a) acc cs).nodes m').cache_r
              = Option.none := by
          intro cs
          induction cs with
          | nil =>
            rintro acc _ _ m' (h | ⟨c, hcm, _⟩)
            · exact h
            · exact absurd hcm (List.not_mem_nil c)
          | cons c1 rest ihl =>
            intro acc hsk hsubs m' hm'
            rw [List.foldl_cons]
            apply ihl (reset_graphics f' true c1 acc)
              (sameKids_trans hsk (sameKids_of_core (reset_graphics_coreEq f' true c1 acc)))
              (fun c h => hsubs c (List.mem_cons_of_mem c1 h))
            rcases hm' with h | ⟨c, hcm, hco⟩
            · exact Or.inl (rg_cacheRMono f' true c1 acc m' h)
            · rcases List.mem_cons.mp hcm with hceq | hcr
              · refine Or.inl (ih f' acc c1
                  (SubFin_transfer hsk (hsubs c1 (List.mem_cons_self c1 rest))) hk' m' ?_)
                rcases hco with h1 | h1
                · exact Or.inl (hceq ▸ h1)
                · exact Or.inr (Desc_transfer hsk (hceq ▸ h1))
              · exact Or.inr ⟨c, hcr, hco⟩
        apply foldlem
        · exact hw1
        · intro c hcmem
          rw [hw1 id] at hcmem
          exact hc c hcmem
        · rcases hm with h1 | h1
          · refine Or.inl ?_
            rw [h1, setNode_nodes, if_pos rfl]
          · obtain ⟨c, hcmem, hor⟩ := Desc_decomp h1
            refine Or.inr ⟨c, ?_, hor⟩
            rw [hw1 id]
            exact hcmem




theorem setter_clears (f k : Nat) (id : NodeId) (w : World) (g : Node → Node)
    (hgkids : ∀ nd, (g nd).children = nd.children)
    (hsub : SubFin w id k) (hk : k ≤ f) (m : NodeId)
    (hm : m = id ∨ Desc w id m) :
    (((reset f id (reset_graphics f true id (setNode w id g))).nodes) m).cache_r
      = Option.none := by
  have hsk : sameKids w (setNode w id g) := by
    intro n
    rw [setNode_nodes]
    by_cases hn : n = id
    · rw [if_pos hn]
      exact hgkids _
    · rw [if_neg hn]
  have h1 := rg_clears k f (setNode w id g) id (SubFin_transfer hsk hsub) hk m (by
    rcases hm with h | h
    · exact Or.inl h
    · exact Or.inr (Desc_transfer hsk h))
  exact reset_cacheRMono f id _ m h1

theorem setter_rect (f : Nat) (id : NodeId) (w : World) (g : Node → Node) :
    (((reset f id (reset_graphics f true id (setNode w id g))).nodes) id).rect
      = (g ((w.nodes) id)).rect := by
  rw [(reset_coreEq f id _ id).2.2.1]
  rw [(reset_graphics_coreEq f true id _ id).2.2.1]
  rw [setNode_nodes, if_pos rfl]

/-- Claim C9 as amended: the width/height/size setters clamp the written
dimensions to a minimum of 1 and every one of the six mutating geometry
accessors invalidates the absolute-rect cache of the node and of its
entire subtree; the x/y/position setters, however, write the coordinates
unclamped, so positions may go negative (see the counterexample). -/
theorem claim_C9_amended :
    (∀ (f : Nat) (id : NodeId) (v : Int) (w : World),
        (((setX f id v w).nodes) id).rect.x = v
        ∧ (((setY f id v w).nodes) id).rect.y = v
        ∧ (((setWidth f id v w).nodes) id).rect.w = max 1 v
        ∧ 1 ≤ (((setWidth f id v w).nodes) id).rect.w
        ∧ (((setHeight f id v w).nodes) id).rect.h = max 1 v
        ∧ 1 ≤ (((setHeight f id v w).nodes) id).rect.h)
    ∧ (∀ (f : Nat) (id : NodeId) (vx vy : Int) (w : World),
        (((setPosition f id vx vy w).nodes) id).rect.x = vx
        ∧ (((setPosition f id vx vy w).nodes) id).rect.y = vy
        ∧ (((setSize f id vx vy w).nodes) id).rect.w = max 1 vx
        ∧ (((setSize f id vx vy w).nodes) id).rect.h = max 1 vy)
    ∧ (∀ (f k : Nat) (id : NodeId) (v : Int) (w : World) (m : NodeId),
        SubFin w id k → k ≤ f → (m = id ∨ Desc w id m) →
        (((setX f id v w).nodes) m).cache_r = Option.none
        ∧ (((setY f id v w).nodes) m).cache_r = Option.none
        ∧ (((setWidth f id v w).nodes) m).cache_r = Option.none
        ∧ (((setHeight f id v w).nodes) m).cache_r = Option.none)
    ∧ (∀ (f k : Nat) (id : NodeId) (vx vy : Int) (w : World) (m : NodeId),
        SubFin w id k → k ≤ f → (m = id ∨ Desc w id m) →
        (((setPosition f id vx vy w).nodes) m).cache_r = Option.none
        ∧ (((setSize f id vx vy w).nodes) m).cache_r = Option.none) := by
  refine ⟨?_, ?_, ?_, ?_⟩
  · intro f id v w
    refine ⟨?_, ?_, ?_, ?_, ?_, ?_⟩
    · simp only [setX]
      rw [setter_rect]
    · simp only [setY]
      rw [setter_rect]
    · simp only [setWidth]
      rw [setter_rect]
    · simp only [setWidth]
      rw [setter_rect]
      exact le_max_left 1 v
    · simp only [setHeight]
      rw [setter_rect]
    · simp only [setHeight]
      rw [setter_rect]
      exact le_max_left 1 v
  · intro f id vx vy w
    refine ⟨?_, ?_, ?_, ?_⟩
    · simp only [setPosition]
      rw [setter_rect]
    · simp only [setPosition]
      rw [setter_rect]
    · simp only [setSize]
      rw [setter_rect]
    · simp only [setSize]
      rw [setter_rect]
  · intro f k id v w m hsub hk hm
    exact ⟨setter_clears f k id w
        (fun nd => { nd with rect := { nd.rect with x := v } })
        (fun nd => rfl) hsub hk m hm,
      setter_clears f k id w
        (fun nd => { nd with rect := { nd.rect with y := v } })
        (fun nd => rfl) hsub hk m hm,
      setter_clears f k id w
        (fun nd => { nd with rect := { nd.rect with w := max 1 v } })
        (fun nd => rfl) hsub hk m hm,
      setter_clears f k id w
        (fun nd => { nd with rect := { nd.rect with h := max 1 v } })
        (fun nd => rfl) hsub hk m hm⟩
  · intro f k id vx vy w m hsub hk hm
    exact ⟨setter_clears f k id w
        (fun nd => { nd with rect := { nd.rect with x := vx, y := vy } })
        (fun nd => rfl) hsub hk m hm,
      setter_clears f k id w
        (fun nd => { nd with rect := { nd.rect with w := max 1 vx, h := max 1 vy } })
        (fun nd => rfl) hsub hk m hm⟩

/-- Counterexample to claim C9 as stated: setting x to -5 leaves the
position negative — the source applies int() but no clamping to the
coordinates. -/
theorem claim_C9_cex :
    (((setX 3 1 (-5) wit0).nodes) 1).rect.x = -5
    ∧ ¬(0 ≤ (((setX 3 1 (-5) wit0).nodes) 1).rect.x) := by
  decide

theorem claim_C9_witness :
    (((setWidth 4 0 (-3) wit0).nodes) 0).rect.w = max 1 (-3)
    ∧ (((setX 4 0 7 wit0).nodes) 1).cache_r = Option.none :=
  ⟨(claim_C9_amended.1 4 0 (-3) wit0).2.2.1,
   (claim_C9_amended.2.2.1 4 2 0 7 wit0 1
      (SubFin.mk (fun c hc => by
        have h : ((wit0.nodes) 0).children = [1] := rfl
        rw [h] at hc
        have hc1 : c = 1 := by simpa using hc
        subst hc1
        exact SubFin.mk (fun c2 hc2 => by
          have h2 : ((wit0.nodes) 1).children = [] := rfl
          rw [h2] at hc2
          exact absurd hc2 (List.not_mem_nil c2))))
      (by omega)
      (Or.inr (Desc.base (show (1 : NodeId) ∈ ((wit0.nodes) 0).children by decide)))).1⟩




theorem handle_message_disposedPkt (f : Nat) (id : NodeId) (pkt : Packet)
    (w : World) (h : pkt.rs = Response.R_DISPOSED) :
    handle_message f id pkt w = (w, []) := by
  cases f with
  | zero => rfl
  | succ f =>
    rw [handle_message.eq_2]
    split
    · rfl
    · simp only [h]

theorem pump_msg_disposedPkt (f : Nat) (w : World) (pkt : Packet)
    (h : pkt.rs = Response.R_DISPOSED) : (pump_msg f w pkt).1 = w := by
  cases f with
  | zero => rfl
  | succ f =>
    rw [pump_msg.eq_2]
    split
    · have foldinv : ∀ (l : List (Int × Option NodeId)) (acc : World × Nat × List Ev),
          acc.1 = w →
          ((List.foldl (fun acc entry =>
            match entry.2 with
            | some hid =>
              ((handle_message f hid pkt acc.1).1, acc.2.1 + 1,
                acc.2.2 ++ (Ev.delivered entry.1 pkt :: (handle_message f hid pkt acc.1).2))
            | Option.none => acc) acc l).1) = w := by
        intro l
        induction l with
        | nil => intro acc hacc; simpa using hacc
        | cons e rest ih =>
          intro acc hacc
          rw [List.foldl_cons]
          rcases e with ⟨k, hv⟩
          cases hv with
          | none => exact ih acc hacc
          | some hid =>
            apply ih
            simp only []
            rw [hacc, handle_message_disposedPkt f hid pkt w h]
      exact foldinv w.cache (w, 0, []) rfl
    · split
      · rename_i hid hlook
        simp only []
        rw [handle_message_disposedPkt f _ pkt w h]
      · rfl
      · rfl

theorem pump_all_disposed (f : Nat) (w : World)
    (h : ∀ pkt ∈ w.queue, pkt.rs = Response.R_DISPOSED) :
    (pump (f + 1) w).1.nodes = w.nodes ∧ (pump (f + 1) w).1.queue = []
    ∧ (pump (f + 1) w).1.cache = w.cache := by
  rw [pump.eq_2]
  by_cases hq : w.queue = []
  · rw [if_pos hq]
    exact ⟨rfl, hq, rfl⟩
  · rw [if_neg hq]
    simp only []
    have foldinv : ∀ (msgs : List Packet) (acc : World × Nat × List Ev),
        (∀ p ∈ msgs, p.rs = Response.R_DISPOSED) →
        acc.1 = { w with queue := [] } →
        (List.foldl (fun acc msg =>
          ((pump_msg f acc.1 msg).1, acc.2.1 + (pump_msg f acc.1 msg).2.1,
            acc.2.2 ++ (pump_msg f acc.1 msg).2.2)) acc msgs).1
          = { w with queue := [] } := by
      intro msgs
      induction msgs with
      | nil => intro acc _ hacc; simpa using hacc
      | cons m rest ih =>
        intro acc hall hacc
        rw [List.foldl_cons]
        apply ih _ (fun p hp => hall p (List.mem_cons_of_mem m hp))
        simp only []
        rw [hacc, pump_msg_disposedPkt f _ m (hall m (List.mem_cons_self m rest))]
    have hfold := foldinv w.queue ({ w with queue := [] }, 0, []) h rfl
    refine ⟨?_, ?_, ?_⟩ <;>
      · split <;> (rw [hfold]; try rfl)




theorem removeE_queueEq (f : Nat) (p c : NodeId) (w : World) :
    (removeE f p c w).queue = w.queue := by
  unfold removeE
  by_cases h : c ∈ ((w.nodes) p).children
  · rw [if_pos h]
    simp only []
    rw [(reset_busEq f p _).2.2.2.2.1]
    rfl
  · rw [if_neg h]

/-- The DISPOSED packet that destroy posts with priority. -/
def dispPacket (w : World) (nT : NodeId) : Packet :=
  ⟨BROADCAST, ((w.nodes) nT).address, Response.R_DISPOSED, PData.element nT⟩

/-- The bus state on which the nested (priority) pump of that packet
runs: the outer pump has detached the original queue, the node is already
unregistered, and the freshly accumulated queue holds exactly the
DISPOSED broadcast. -/
def dispWorld (w : World) (nT : NodeId) : World :=
  { unregister { w with queue := [] } nT with queue := [dispPacket w nT] }

/-- Claim C10: a post with priority set enqueues the packet and then
pumps the bus synchronously before returning (first conjunct, for any
node whose root memo is cached and whose root owns the bus). Hence when a
handler running inside a pump posts with priority — as destroy does for
its DISPOSED broadcast — the message is excluded from the batch being
drained (the outer pump detached the queue first) yet is fully delivered
by the nested pump before the outer pump returns: in the TERMINATE
scenario of the second conjunct, the outer pump ends with an empty queue
and its trace shows the DISPOSED broadcast posted and pumped strictly
between the unregistration and the disposed-flag teardown. -/
theorem claim_C10 :
    (∀ (f : Nat) (id : NodeId) (recv : Int) (rs : Response) (d : PData)
        (w : World) (rt : NodeId),
        ((w.nodes) id).cache = some rt → w.busOwner = some rt →
        post (f + 1) id recv rs d true w
          = ((pump f { w with queue := w.queue
                ++ [⟨recv, ((w.nodes) id).address, rs, d⟩] }).1,
             Ev.posted ⟨recv, ((w.nodes) id).address, rs, d⟩
               :: (pump f { w with queue := w.queue
                ++ [⟨recv, ((w.nodes) id).address, rs, d⟩] }).2.2))
    ∧ (∀ (f : Nat) (w : World) (a s : Int) (d0 : PData) (nT rt : NodeId),
        w.queue = [⟨a, s, Response.R_TERMINATE, d0⟩] → a ≠ BROADCAST →
        alistGet w.cache a = some (some nT) →
        ((w.nodes) nT).disposed = false → s ≠ ((w.nodes) nT).address →
        ((w.nodes) nT).children = [] → ((w.nodes) nT).cache = some rt →
        w.busOwner = some rt →
        (pump (f + 6) w).1.queue = []
        ∧ (pump (f + 6) w).2.2
            = Ev.delivered a ⟨a, s, Response.R_TERMINATE, d0⟩
              :: [Ev.unregistered nT]
              ++ (Ev.posted (dispPacket w nT)
                   :: (pump (f + 1) (dispWorld w nT)).2.2)
              ++ [Ev.setDisposed nT, Ev.detached nT, Ev.clearedChildren nT]) := by
  constructor
  · intro f id recv rs d w rt hcache hconn
    rw [post.eq_2]
    rw [rootOf_hit f w id rt hcache]
    rw [if_pos hconn]
    rfl
  · intro f w a s d0 nT rt hq ha hc hdisp hs hkids hcache hconn
    have hw1 : ∀ (q : List Packet), (({ w with queue := q } : World)).nodes = w.nodes := fun _ => rfl
    -- unfold the destroy reached by the TERMINATE delivery
    have hru : rootOf (f + 2) ({ w with queue := [] } : World) nT
        = (({ w with queue := [] } : World), rt) :=
      rootOf_hit (f + 2) _ nT rt hcache
    have hruB : rootOf (f + 1)
        (unregister ({ w with queue := [] } : World) nT) nT
        = (unregister ({ w with queue := [] } : World) nT, rt) :=
      rootOf_hit (f + 1) _ nT rt hcache
    have hpost := post.eq_2 nT BROADCAST Response.R_DISPOSED (PData.element nT) true
      (unregister ({ w with queue := [] } : World) nT) (f + 1)
    rw [hruB] at hpost
    rw [if_pos (show (unregister ({ w with queue := [] } : World) nT).busOwner
        = some rt from hconn)] at hpost
    have hmainD := destroy.eq_2 nT ({ w with queue := [] } : World) (f + 2)
    rw [if_neg (show ¬((({ w with queue := [] } : World)).nodes nT).disposed = true
        by simp [hdisp])] at hmainD
    rw [show ((({ w with queue := [] } : World)).nodes nT).children = ([] : List NodeId)
        from hkids] at hmainD
    simp only [List.foldl_nil] at hmainD
    rw [hru] at hmainD
    rw [if_pos (show (({ w with queue := [] } : World)).busOwner = some rt from hconn)] at hmainD
    have hqueue : ∀ (v : World) (g : Node → Node), (setNode v nT g).queue = v.queue :=
      fun v g => rfl
    have hnested := pump_all_disposed f (dispWorld w nT)
      (by
        intro pkt hpkt
        simp only [dispWorld] at hpkt
        have hpe : pkt = dispPacket w nT := by simpa using hpkt
        rw [hpe]
        rfl)
    have hqpost : (post (f + 2) nT BROADCAST Response.R_DISPOSED (PData.element nT)
        true (unregister ({ w with queue := [] } : World) nT)).1.queue = [] := by
      rw [hpost]
      exact hnested.2.1
    have hT : handle_message (f + 4) nT ⟨a, s, Response.R_TERMINATE, d0⟩
        ({ w with queue := [] } : World)
        = destroy (f + 3) nT ({ w with queue := [] } : World) := by
      rw [handle_message.eq_2]
      rw [if_neg (show ¬(((({ w with queue := [] } : World)).nodes nT).disposed = true
          ∨ s = ((({ w with queue := [] } : World)).nodes nT).address)
          by simp [hdisp, hs])]
    have hpm : pump_msg (f + 5) ({ w with queue := [] } : World)
        ⟨a, s, Response.R_TERMINATE, d0⟩
        = ((destroy (f + 3) nT ({ w with queue := [] } : World)).1, 1,
           Ev.delivered a ⟨a, s, Response.R_TERMINATE, d0⟩
             :: (destroy (f + 3) nT ({ w with queue := [] } : World)).2) := by
      rw [pump_msg.eq_2]
      rw [if_neg ha]
      simp only [show alistGet (({ w with queue := [] } : World)).cache a
        = some (some nT) from hc]
      rw [hT]
    have hq7 : (destroy (f + 3) nT ({ w with queue := [] } : World)).1.queue = [] := by
      rw [hmainD]
      show (setNode _ nT _).queue = []
      rw [hqueue]
      rcases hp : (((setNode (post (f + 2) nT BROADCAST Response.R_DISPOSED
          (PData.element nT) true
          (unregister ({ w with queue := [] } : World) nT)).1 nT
          (fun n => { n with disposed := true })).nodes) nT).parent with _ | p
      · simp only [hp]
        rw [hqueue]
        exact hqpost
      · simp only [hp]
        rw [removeE_queueEq, hqueue]
        exact hqpost
    refine ⟨?_, ?_⟩
    · rw [pump.eq_2]
      rw [if_neg (by rw [hq]; simp)]
      rw [hq]
      simp only [List.foldl_cons, List.foldl_nil]
      rw [hpm]
      simp only []
      split
      · exact hq7
      · exact hq7
    · rw [pump.eq_2]
      rw [if_neg (by rw [hq]; simp)]
      rw [hq]
      simp only [List.foldl_cons, List.foldl_nil]
      rw [hpm]
      simp only []
      rw [hmainD, hpost]
      rfl




/-- World for the C10 witness: a TERMINATE unicast to node 1 (address 2)
is pending; node 1 has its root memo cached. -/
def witT : World :=
  { wit0 with
      queue := [⟨2, 9, Response.R_TERMINATE, PData.none⟩]
      nodes := fun j =>
        if j = 1 then { (wit0.nodes) 1 with cache := some 0 }
        else (wit0.nodes) j }

theorem claim_C10_witness :
    post 3 0 5 Response.R_OK PData.none true wit8
      = ((pump 2 { wit8 with queue := wit8.queue
            ++ [⟨5, ((wit8.nodes) 0).address, Response.R_OK, PData.none⟩] }).1,
         Ev.posted ⟨5, ((wit8.nodes) 0).address, Response.R_OK, PData.none⟩
           :: (pump 2 { wit8 with queue := wit8.queue
            ++ [⟨5, ((wit8.nodes) 0).address, Response.R_OK, PData.none⟩] }).2.2)
    ∧ (pump 6 witT).1.queue = [] :=
  ⟨claim_C10.1 2 0 5 Response.R_OK PData.none wit8 0 (by decide) (by decide),
   (claim_C10.2 0 witT 2 9 PData.none 1 0 rfl (by decide) (by decide) (by decide)
      (by decide) (by decide) (by decide) (by decide)).1⟩

/-- Preorder listing of the subtree below a node, to the given fuel. -/
def subList : Nat → World → NodeId → List NodeId
  | 0, _, _ => []
  | f + 1, w, id =>
    id :: ((((w.nodes) id).children).map (fun c => subList f w c)).flatten

theorem subList_self (f : Nat) (w : World) (id : NodeId) :
    id ∈ subList (f + 1) w id := by
  simp [subList]

theorem mem_subList_succ {f : Nat} {w : World} {id x : NodeId} :
    x ∈ subList (f + 1) w id
      ↔ x = id ∨ ∃ c ∈ ((w.nodes) id).children, x ∈ subList f w c := by
  simp [subList, List.mem_flatten]

/-- A node with a nonempty subtree bound has a positive bound. -/
theorem SubFin_pos {w : World} {id : NodeId} {k : Nat} (h : SubFin w id k) :
    ∃ k', k = k' + 1 := by
  cases h with
  | mk hc => exact ⟨_, rfl⟩

/-- Node equality up to the depth field. -/
def dropDepth (n : Node) : Node := { n with depth := 0 }

/-- update_depth touches nothing but depth fields. -/
theorem ud_dropDepth (f : Nat) (id : NodeId) (nd : Int) (w : World) (n : NodeId) :
    dropDepth (((update_depth f id nd w).nodes) n) = dropDepth ((w.nodes) n) := by
  induction f generalizing id nd w n with
  | zero => rfl
  | succ f ih =>
    rw [update_depth.eq_2]
    have hrel : ∀ (v v' : World), (∀ m, dropDepth ((v'.nodes) m) = dropDepth ((v.nodes) m))
        → True := fun _ _ _ => trivial
    have hstep : ∀ m, dropDepth (((setNode w id (fun n => { n with depth := nd })).nodes) m)
        = dropDepth ((w.nodes) m) := by
      intro m
      rw [setNode_nodes]
      by_cases hm : m = id
      · rw [if_pos hm]
        rfl
      · rw [if_neg hm]
    have hfold : ∀ (cs : List NodeId) (acc : World),
        (∀ m, dropDepth ((acc.nodes) m) = dropDepth ((w.nodes) m)) →
        ∀ m, dropDepth (((List.foldl
            (fun acc c => update_depth f c
              (((acc.nodes) c).depth + (nd - ((w.nodes) id).depth)) acc) acc cs).nodes) m)
          = dropDepth ((w.nodes) m) := by
      intro cs
      induction cs with
      | nil => intro acc hacc m; simpa using hacc m
      | cons c rest ihl =>
        intro acc hacc m
        rw [List.foldl_cons]
        exact ihl _ (fun m2 => (ih c _ acc m2).trans (hacc m2)) m
    exact hfold _ _ hstep n

theorem ud_children (f : Nat) (id : NodeId) (nd : Int) (w : World) (n : NodeId) :
    (((update_depth f id nd w).nodes) n).children = ((w.nodes) n).children := by
  have h := ud_dropDepth f id nd w n
  have := congrArg Node.children h
  simpa [dropDepth] using this

theorem ud_parent (f : Nat) (id : NodeId) (nd : Int) (w : World) (n : NodeId) :
    (((update_depth f id nd w).nodes) n).parent = ((w.nodes) n).parent := by
  have h := ud_dropDepth f id nd w n
  have := congrArg Node.parent h
  simpa [dropDepth] using this

/-- subLists agree between worlds that agree on the children of every
member of the sublist. -/
theorem subList_congr : ∀ (f : Nat) (w w' : World) (c : NodeId),
    (∀ x ∈ subList f w c, ((w'.nodes) x).children = ((w.nodes) x).children) →
    subList f w' c = subList f w c := by
  intro f
  induction f with
  | zero => intro w w' c _; rfl
  | succ f ih =>
    intro w w' c hagree
    have hc : ((w'.nodes) c).children = ((w.nodes) c).children :=
      hagree c (subList_self f w c)
    simp only [subList, hc]
    congr 1
    congr 1
    apply List.map_congr_left
    intro ch hch
    apply ih
    intro x hx
    apply hagree
    rw [mem_subList_succ]
    exact Or.inr ⟨ch, hch, hx⟩

/-- SubFin transfers between worlds agreeing on the children of the
sublist members (fuel at least the bound). -/
theorem SubFin_congr : ∀ (k : Nat) (f : Nat) (w w' : World) (c : NodeId),
    SubFin w c k → k ≤ f →
    (∀ x ∈ subList f w c, ((w'.nodes) x).children = ((w.nodes) x).children) →
    SubFin w' c k := by
  intro k
  induction k with
  | zero => intro f w w' c h; cases h
  | succ k ih =>
    intro f w w' c h hk hagree
    cases h with
    | mk hc =>
      rcases f with _ | f'
      · omega
      · refine SubFin.mk ?_
        intro ch hch
        rw [hagree c (subList_self f' w c)] at hch
        refine ih f' w w' ch (hc ch hch) (by omega) ?_
        intro x hx
        apply hagree
        rw [mem_subList_succ]
        exact Or.inr ⟨ch, hch, hx⟩


/-- Children of subtree members stay inside the subtree listing. -/
theorem subList_closed : ∀ (k f : Nat) (w : World) (c : NodeId),
    SubFin w c k → k ≤ f →
    ∀ x ∈ subList f w c, ∀ ch ∈ ((w.nodes) x).children, ch ∈ subList f w c := by
  intro k
  induction k with
  | zero => intro f w c h; cases h
  | succ k ih =>
    intro f w c h hk x hx ch hch
    cases h with
    | mk hc =>
      rcases f with _ | f'
      · omega
      · rw [mem_subList_succ] at hx ⊢
        rcases hx with rfl | ⟨c0, hc0, hx0⟩
        · have hsf := hc ch hch
          obtain ⟨k', rfl⟩ := SubFin_pos hsf
          rcases f' with _ | f''
          · omega
          · exact Or.inr ⟨ch, hch, subList_self f'' w ch⟩
        · exact Or.inr ⟨c0, hc0, ih f' w c0 (hc c0 hc0) (by omega) x hx0 ch hch⟩

/-- Every non-root member of the subtree listing is the child of another
member. -/
theorem subList_entered : ∀ (k f : Nat) (w : World) (c : NodeId),
    SubFin w c k → k ≤ f →
    ∀ x ∈ subList f w c, x ≠ c →
    ∃ y ∈ subList f w c, x ∈ ((w.nodes) y).children := by
  intro k
  induction k with
  | zero => intro f w c h; cases h
  | succ k ih =>
    intro k0 w c h hk x hx hne
    cases h with
    | mk hc =>
      rcases k0 with _ | f'
      · omega
      · rw [mem_subList_succ] at hx
        rcases hx with rfl | ⟨c0, hc0, hx0⟩
        · exact absurd rfl hne
        · by_cases hxc : x = c0
          · subst hxc
            exact ⟨c, subList_self f' w c, hc0⟩
          · obtain ⟨y, hy, hxy⟩ := ih f' w c0 (hc c0 hc0) (by omega) x hx0 hxc
            refine ⟨y, ?_, hxy⟩
            rw [mem_subList_succ]
            exact Or.inr ⟨c0, hc0, hy⟩

/-- Characterization of update_depth on a duplicate-free subtree listing
within fuel: members get their depth shifted by the common change, other
nodes are untouched. -/
theorem ud_spec : ∀ (k f : Nat) (w : World) (c : NodeId) (nd : Int),
    SubFin w c k → k ≤ f → (subList f w c).Nodup →
    (∀ x ∈ subList f w c,
        ((update_depth f c nd w).nodes) x
          = { (w.nodes) x with
                depth := ((w.nodes) x).depth + (nd - ((w.nodes) c).depth) }) ∧
    (∀ x, x ∉ subList f w c → ((update_depth f c nd w).nodes) x = (w.nodes) x) := by
  intro k
  induction k with
  | zero => intro f w c nd h; cases h
  | succ k ih =>
    intro f w c nd h hk hnd
    cases h with
    | mk hc =>
      rcases f with _ | f'
      · omega
      · rw [update_depth.eq_2]
        simp only []
        have hw1c : ((setNode w c (fun n => { n with depth := nd })).nodes c).children
            = ((w.nodes) c).children := by
          rw [setNode_nodes, if_pos rfl]
        rw [hw1c]
        have hsl : subList (f' + 1) w c
            = c :: ((((w.nodes) c).children).map (fun ch => subList f' w ch)).flatten := rfl
        rw [hsl] at hnd
        have hcnj : c ∉ ((((w.nodes) c).children).map (fun ch => subList f' w ch)).flatten
            ∧ (((((w.nodes) c).children).map (fun ch => subList f' w ch)).flatten).Nodup := by
          rw [List.nodup_cons] at hnd
          exact hnd
        -- the fold lemma over a generalized list of children roots
        have hfold : ∀ (cs : List NodeId) (acc : World),
            (∀ ch ∈ cs, SubFin w ch k) →
            ((cs.map (fun ch => subList f' w ch)).flatten).Nodup →
            (∀ m, ((acc.nodes) m).children = ((w.nodes) m).children) →
            (∀ ch ∈ cs, ∀ x ∈ subList f' w ch, (acc.nodes) x = (w.nodes) x) →
            (∀ x ∈ (cs.map (fun ch => subList f' w ch)).flatten,
                ((List.foldl (fun acc c2 => update_depth f' c2
                    (((acc.nodes) c2).depth + (nd - ((w.nodes) c).depth)) acc) acc cs).nodes) x
                  = { (w.nodes) x with
                        depth := ((w.nodes) x).depth + (nd - ((w.nodes) c).depth) }) ∧
            (∀ x, x ∉ (cs.map (fun ch => subList f' w ch)).flatten →
                ((List.foldl (fun acc c2 => update_depth f' c2
                    (((acc.nodes) c2).depth + (nd - ((w.nodes) c).depth)) acc) acc cs).nodes) x
                  = (acc.nodes) x) := by
          intro cs
          induction cs with
          | nil =>
            intro acc _ _ _ _
            constructor
            · intro x hx; simp at hx
            · intro x _; rfl
          | cons ch rest ihl =>
            intro acc hsf hndj hkids huntouched
            rw [List.map_cons, List.flatten_cons] at hndj
            have hdisj := List.disjoint_of_nodup_append hndj
            have hnd1 := (List.nodup_append.mp hndj).1
            have hnd2 := (List.nodup_append.mp hndj).2.1
            have hsfch := hsf ch (List.mem_cons_self ch rest)
            -- transfer SubFin and subList to the accumulator world
            have hslacc : subList f' acc ch = subList f' w ch :=
              subList_congr f' w acc ch (fun x _ => hkids x)
            have hsfacc : SubFin acc ch k :=
              SubFin_congr k f' w acc ch hsfch (by omega) (fun x _ => hkids x)
            have hih := ih f' acc ch (((acc.nodes) ch).depth + (nd - ((w.nodes) c).depth))
              hsfacc (by omega) (by rw [hslacc]; exact hnd1)
            rw [hslacc] at hih
            obtain ⟨hin, hout⟩ := hih
            have hchhead : ch ∈ subList f' w ch := by
              obtain ⟨k', rfl⟩ := SubFin_pos hsfch
              rcases f' with _ | f''
              · omega
              · exact subList_self f'' w ch
            have haccch : (acc.nodes) ch = (w.nodes) ch :=
              huntouched ch (List.mem_cons_self ch rest) ch hchhead
            -- the updated world after handling the first child
            rw [List.foldl_cons]
            have ha1 : ∀ x ∈ subList f' w ch,
                ((update_depth f' ch (((acc.nodes) ch).depth + (nd - ((w.nodes) c).depth)) acc).nodes) x
                  = { (w.nodes) x with
                        depth := ((w.nodes) x).depth + (nd - ((w.nodes) c).depth) } := by
              intro x hx
              have := hin x hx
              rw [huntouched ch (List.mem_cons_self ch rest) x hx] at this
              rw [this, haccch]
              have harith : ((w.nodes) ch).depth + (nd - ((w.nodes) c).depth)
                  - ((w.nodes) ch).depth = nd - ((w.nodes) c).depth := by ring
              rw [harith]
            have ha1out : ∀ x, x ∉ subList f' w ch →
                ((update_depth f' ch (((acc.nodes) ch).depth + (nd - ((w.nodes) c).depth)) acc).nodes) x
                  = (acc.nodes) x := hout
            have hihrest := ihl
              (update_depth f' ch (((acc.nodes) ch).depth + (nd - ((w.nodes) c).depth)) acc)
              (fun c2 hc2 => hsf c2 (List.mem_cons_of_mem ch hc2)) hnd2
              (fun m => by rw [ud_children]; exact hkids m)
              (fun c2 hc2 x hx => by
                rw [ha1out x (fun hxin => hdisj hxin (by
                  exact List.mem_flatten.mpr ⟨subList f' w c2, List.mem_map_of_mem _ hc2, hx⟩))]
                exact huntouched c2 (List.mem_cons_of_mem ch hc2) x hx)
            obtain ⟨hrin, hrout⟩ := hihrest
            constructor
            · intro x hx
              rw [List.map_cons, List.flatten_cons, List.mem_append] at hx
              rcases hx with hx | hx
              · rw [hrout x (fun hxin => hdisj hx hxin)]
                exact ha1 x hx
              · exact hrin x hx
            · intro x hx
              rw [List.map_cons, List.flatten_cons, List.mem_append] at hx
              push_neg at hx
              rw [hrout x hx.2]
              exact ha1out x hx.1
        have hmain := hfold ((w.nodes) c).children
          (setNode w c (fun n => { n with depth := nd })) hc hcnj.2
          (fun m => by
            rw [setNode_nodes]
            by_cases hm : m = c
            · rw [if_pos hm, hm]
            · rw [if_neg hm])
          (fun ch hch x hx => by
            rw [setNode_nodes]
            have hxc : x ≠ c := by
              intro hxc
              subst hxc
              exact hcnj.1 (List.mem_flatten.mpr
                ⟨subList f' w ch, List.mem_map_of_mem _ hch, hx⟩)
            rw [if_neg hxc])
        obtain ⟨hmin, hmout⟩ := hmain
        constructor
        · intro x hx
          rw [hsl, List.mem_cons] at hx
          rcases hx with rfl | hx
          · rw [hmout x hcnj.1, setNode_nodes, if_pos rfl]
            have harith : ((w.nodes) x).depth + (nd - ((w.nodes) x).depth) = nd := by ring
            rw [harith]
          · exact hmin x hx
        · intro x hx
          rw [hsl, List.mem_cons] at hx
          push_neg at hx
          rw [hmout x hx.2, setNode_nodes, if_neg hx.1]


/-- Tree well-formedness: children lists and parent pointers agree, a
child sits one level below its parent, and children lists are
duplicate-free (hence each node has at most one owner). -/
def WF (w : World) : Prop :=
  (∀ p c, c ∈ ((w.nodes) p).children →
      ((w.nodes) c).parent = some p
        ∧ ((w.nodes) c).depth = ((w.nodes) p).depth + 1)
  ∧ (∀ c p, ((w.nodes) c).parent = some p → c ∈ ((w.nodes) p).children)
  ∧ (∀ p, (((w.nodes) p).children).Nodup)

/-- Agreement of the tree-structural fields between two worlds. -/
def treeEq (w w' : World) : Prop :=
  ∀ n, ((w'.nodes) n).parent = ((w.nodes) n).parent
     ∧ ((w'.nodes) n).children = ((w.nodes) n).children
     ∧ ((w'.nodes) n).depth = ((w.nodes) n).depth

theorem treeEq_of_core {w w' : World} (h : nodesCoreEq w w') : treeEq w w' := by
  intro n
  obtain ⟨_, _, _, h4, h5, _, _, _, _, _, h11, _⟩ := h n
  exact ⟨h4, h5, h11⟩

theorem WF_transfer {w w' : World} (ht : treeEq w w') (hwf : WF w) : WF w' := by
  obtain ⟨h1, h2, h3⟩ := hwf
  refine ⟨?_, ?_, ?_⟩
  · intro p c hc
    rw [(ht p).2.1] at hc
    rw [(ht c).1, (ht c).2.2, (ht p).2.2]
    exact h1 p c hc
  · intro c p hp
    rw [(ht c).1] at hp
    rw [(ht p).2.1]
    exact h2 c p hp
  · intro p
    rw [(ht p).2.1]
    exact h3 p

theorem register_treeEq (w : World) (id : NodeId) : treeEq w (register w id) := by
  intro n
  unfold register
  by_cases h : ((w.nodes) id).address < 0
  · rw [if_pos h]
    rw [setNode_nodes]
    by_cases hn : n = id
    · rw [if_pos hn]
      exact ⟨rfl, rfl, rfl⟩
    · rw [if_neg hn]
      exact ⟨rfl, rfl, rfl⟩
  · rw [if_neg h]
    exact ⟨rfl, rfl, rfl⟩

/-- Depth strictly increases from a node to any of its descendants in a
well-formed world. -/
theorem WF_depth_lt {w : World} (hwf : WF w) {p c : NodeId} (h : Desc w p c) :
    ((w.nodes) p).depth < ((w.nodes) c).depth := by
  obtain ⟨h1, _, _⟩ := hwf
  induction h with
  | base hch =>
    have := (h1 _ _ hch).2
    omega
  | step hd hch ih =>
    have := (h1 _ _ hch).2
    omega

theorem WF_acyclic {w : World} (hwf : WF w) (n : NodeId) : ¬ Desc w n n :=
  fun h => absurd (WF_depth_lt hwf h) (lt_irrefl _)

/-- remove preserves well-formedness. -/
theorem removeE_WF (f : Nat) (p c : NodeId) (w : World) (hwf : WF w) :
    WF (removeE f p c w) := by
  obtain ⟨h1, h2, h3⟩ := hwf
  unfold removeE
  by_cases hmem : c ∈ ((w.nodes) p).children
  · rw [if_pos hmem]
    have hcp : c ≠ p := by
      intro h
      have := (h1 p c hmem).2
      rw [h] at this
      omega
    have hn2 : ∀ n, ((setNode (setNode w p
          (fun n => { n with children := n.children.erase c })) c
          (fun n => { n with parent := Option.none })).nodes) n
        = if n = c then { (w.nodes) c with parent := Option.none }
          else if n = p then
            { (w.nodes) p with children := ((w.nodes) p).children.erase c }
          else (w.nodes) n := by
      intro n
      simp only [setNode_nodes]
      by_cases hnc : n = c
      · rw [if_pos hnc, if_pos hnc, hnc, if_neg hcp]
      · rw [if_neg hnc, if_neg hnc]
        by_cases hnp : n = p
        · rw [if_pos hnp, if_pos hnp, hnp]
        · rw [if_neg hnp, if_neg hnp]
    have hkids2 : ∀ q, q ≠ p →
        (((setNode (setNode w p
          (fun n => { n with children := n.children.erase c })) c
          (fun n => { n with parent := Option.none })).nodes) q).children
        = ((w.nodes) q).children := by
      intro q hq
      rw [hn2 q]
      by_cases hqc : q = c
      · rw [if_pos hqc, hqc]
      · rw [if_neg hqc, if_neg hq]
    have hkids2p :
        (((setNode (setNode w p
          (fun n => { n with children := n.children.erase c })) c
          (fun n => { n with parent := Option.none })).nodes) p).children
        = ((w.nodes) p).children.erase c := by
      rw [hn2 p, if_neg (Ne.symm hcp), if_pos rfl]
    have hpar2 : ∀ x, x ≠ c →
        (((setNode (setNode w p
          (fun n => { n with children := n.children.erase c })) c
          (fun n => { n with parent := Option.none })).nodes) x).parent
        = ((w.nodes) x).parent := by
      intro x hx
      rw [hn2 x, if_neg hx]
      by_cases hxp : x = p
      · rw [if_pos hxp, hxp]
      · rw [if_neg hxp]
    have hpar2c :
        (((setNode (setNode w p
          (fun n => { n with children := n.children.erase c })) c
          (fun n => { n with parent := Option.none })).nodes) c).parent
        = Option.none := by
      rw [hn2 c, if_pos rfl]
    have hdep2 : ∀ x,
        (((setNode (setNode w p
          (fun n => { n with children := n.children.erase c })) c
          (fun n => { n with parent := Option.none })).nodes) x).depth
        = ((w.nodes) x).depth := by
      intro x
      rw [hn2 x]
      by_cases hxc : x = c
      · rw [if_pos hxc, hxc]
      · rw [if_neg hxc]
        by_cases hxp : x = p
        · rw [if_pos hxp, hxp]
        · rw [if_neg hxp]
    have hwf2 : WF (setNode (setNode w p
        (fun n => { n with children := n.children.erase c })) c
        (fun n => { n with parent := Option.none })) := by
      refine ⟨?_, ?_, ?_⟩
      · intro q ch hch
        by_cases hqp : q = p
        · subst hqp
          rw [hkids2p] at hch
          obtain ⟨hne, hch⟩ := ((h3 q).mem_erase_iff).mp hch
          refine ⟨?_, ?_⟩
          · rw [hpar2 ch hne]
            exact (h1 q ch hch).1
          · rw [hdep2 ch, hdep2 q]
            exact (h1 q ch hch).2
        · rw [hkids2 q hqp] at hch
          have hne : ch ≠ c := by
            intro h
            subst h
            have e1 := (h1 q ch hch).1
            have e2 := (h1 p ch hmem).1
            rw [e1] at e2
            injection e2 with e3
            exact hqp e3
          refine ⟨?_, ?_⟩
          · rw [hpar2 ch hne]
            exact (h1 q ch hch).1
          · rw [hdep2 ch, hdep2 q]
            exact (h1 q ch hch).2
      · intro y q hyq
        by_cases hyc : y = c
        · subst hyc
          rw [hpar2c] at hyq
          exact Option.noConfusion hyq
        · rw [hpar2 y hyc] at hyq
          have hmem2 := h2 y q hyq
          by_cases hqp : q = p
          · subst hqp
            rw [hkids2p]
            exact ((h3 q).mem_erase_iff).mpr ⟨hyc, hmem2⟩
          · rw [hkids2 q hqp]
            exact hmem2
      · intro q
        by_cases hqp : q = p
        · subst hqp
          rw [hkids2p]
          exact (h3 q).erase c
        · rw [hkids2 q hqp]
          exact h3 q
    exact WF_transfer (treeEq_of_core (reset_coreEq f p _)) hwf2
  · rw [if_neg hmem]
    exact ⟨h1, h2, h3⟩


/-- Core of the attach path: appending a detached child outside whose
subtree the new parent lies, fixing the parent pointer, and propagating
depths through the child subtree restores well-formedness. -/
theorem add_core_WF (f k : Nat) (p c : NodeId) (w w2 : World)
    (hwf : WF w) (hpar : ((w.nodes) c).parent = Option.none)
    (hsub : SubFin w c k) (hk : k ≤ f)
    (hnodup : (subList f w c).Nodup)
    (hout : p ∉ subList f w c)
    (hcp : c ≠ p)
    (hn2 : ∀ n, (w2.nodes) n = if n = c then { (w.nodes) c with parent := some p }
        else if n = p then
          { (w.nodes) p with children := ((w.nodes) p).children ++ [c] }
        else (w.nodes) n) :
    WF (update_depth f c (((w2.nodes) p).depth + 1) w2) := by
  obtain ⟨h1, h2, h3⟩ := hwf
  have hcS : c ∈ subList f w c := by
    obtain ⟨k1, rfl⟩ := SubFin_pos hsub
    rcases f with _ | f'
    · omega
    · exact subList_self f' w c
  -- w2 projections
  have hkids2 : ∀ x, x ≠ p → ((w2.nodes) x).children = ((w.nodes) x).children := by
    intro x hx
    rw [hn2 x]
    by_cases hxc : x = c
    · rw [if_pos hxc, hxc]
    · rw [if_neg hxc, if_neg hx]
  have hdep2 : ∀ x, x ≠ c → ((w2.nodes) x).depth = ((w.nodes) x).depth := by
    intro x hx
    rw [hn2 x, if_neg hx]
    by_cases hxp : x = p
    · rw [if_pos hxp, hxp]
    · rw [if_neg hxp]
  have hdep2c : ((w2.nodes) c).depth = ((w.nodes) c).depth := by
    rw [hn2 c, if_pos rfl]
  have hpar2 : ∀ x, x ≠ c → ((w2.nodes) x).parent = ((w.nodes) x).parent := by
    intro x hx
    rw [hn2 x, if_neg hx]
    by_cases hxp : x = p
    · rw [if_pos hxp, hxp]
    · rw [if_neg hxp]
  have hpar2c : ((w2.nodes) c).parent = some p := by
    rw [hn2 c, if_pos rfl]
  -- the child subtree listing is insensitive to the two setNode updates
  have hmemS : ∀ x ∈ subList f w c,
      ((w2.nodes) x).children = ((w.nodes) x).children :=
    fun x hx => hkids2 x (fun hxp => hout (hxp ▸ hx))
  have hsl2 : subList f w2 c = subList f w c := subList_congr f w w2 c hmemS
  have hsf2 : SubFin w2 c k := SubFin_congr k f w w2 c hsub hk hmemS
  have hnd2 : (subList f w2 c).Nodup := by
    rw [hsl2]
    exact hnodup
  obtain ⟨huin, huout⟩ :=
    ud_spec k f w2 c (((w2.nodes) p).depth + 1) hsf2 hk hnd2
  rw [hsl2] at huin huout
  -- projections of the final world
  have hkids3 : ∀ x, x ≠ p →
      (((update_depth f c (((w2.nodes) p).depth + 1) w2).nodes) x).children
      = ((w.nodes) x).children := by
    intro x hx
    by_cases hxS : x ∈ subList f w c
    · rw [huin x hxS]
      exact hkids2 x hx
    · rw [huout x hxS]
      exact hkids2 x hx
  have hkids3p :
      (((update_depth f c (((w2.nodes) p).depth + 1) w2).nodes) p).children
      = ((w.nodes) p).children ++ [c] := by
    rw [huout p hout, hn2 p, if_neg (Ne.symm hcp), if_pos rfl]
  have hpar3 : ∀ x, x ≠ c →
      (((update_depth f c (((w2.nodes) p).depth + 1) w2).nodes) x).parent
      = ((w.nodes) x).parent := by
    intro x hx
    by_cases hxS : x ∈ subList f w c
    · rw [huin x hxS]
      exact hpar2 x hx
    · rw [huout x hxS]
      exact hpar2 x hx
  have hpar3c :
      (((update_depth f c (((w2.nodes) p).depth + 1) w2).nodes) c).parent
      = some p := by
    rw [huin c hcS]
    exact hpar2c
  have hdep3out : ∀ x, x ∉ subList f w c →
      (((update_depth f c (((w2.nodes) p).depth + 1) w2).nodes) x).depth
      = ((w.nodes) x).depth := by
    intro x hx
    rw [huout x hx]
    exact hdep2 x (fun hxc => hx (hxc ▸ hcS))
  have hdep3in : ∀ x ∈ subList f w c,
      (((update_depth f c (((w2.nodes) p).depth + 1) w2).nodes) x).depth
      = ((w.nodes) x).depth
        + (((w.nodes) p).depth + 1 - ((w.nodes) c).depth) := by
    intro x hx
    rw [huin x hx]
    show ((w2.nodes) x).depth
        + ((((w2.nodes) p).depth + 1) - ((w2.nodes) c).depth) = _
    rw [hdep2 p (Ne.symm hcp), hdep2c]
    by_cases hxc : x = c
    · rw [hxc, hdep2c]
    · rw [hdep2 x hxc]
  -- membership helpers
  have hcnotchild : ∀ x, c ∉ ((w.nodes) x).children := by
    intro x hx
    have := (h1 x c hx).1
    rw [hpar] at this
    exact Option.noConfusion this
  have hinto : ∀ x ch, ch ∈ ((w.nodes) x).children →
      ch ∈ subList f w c → x ∈ subList f w c := by
    intro x ch hch hchS
    have hchc : ch ≠ c := fun h => hcnotchild x (h ▸ hch)
    obtain ⟨y, hy, hchy⟩ := subList_entered k f w c hsub hk ch hchS hchc
    have h1y := (h1 y ch hchy).1
    have h1x := (h1 x ch hch).1
    rw [h1x] at h1y
    injection h1y with hxy
    rw [hxy]
    exact hy
  refine ⟨?_, ?_, ?_⟩
  · intro q ch hch
    by_cases hqp : q = p
    · subst hqp
      rw [hkids3p] at hch
      rcases List.mem_append.mp hch with hch | hch
      · have hchc : ch ≠ c := fun h => hcnotchild q (h ▸ hch)
        have hchS : ch ∉ subList f w c := fun hS => hout (hinto q ch hch hS)
        refine ⟨?_, ?_⟩
        · rw [hpar3 ch hchc]
          exact (h1 q ch hch).1
        · rw [hdep3out ch hchS, hdep3out q hout]
          exact (h1 q ch hch).2
      · rw [List.mem_singleton] at hch
        subst hch
        refine ⟨hpar3c, ?_⟩
        rw [hdep3in ch hcS, hdep3out q hout]
        ring
    · rw [hkids3 q hqp] at hch
      have hchc : ch ≠ c := fun h => hcnotchild q (h ▸ hch)
      by_cases hqS : q ∈ subList f w c
      · have hchS := subList_closed k f w c hsub hk q hqS ch hch
        refine ⟨?_, ?_⟩
        · rw [hpar3 ch hchc]
          exact (h1 q ch hch).1
        · rw [hdep3in ch hchS, hdep3in q hqS]
          have := (h1 q ch hch).2
          omega
      · have hchS : ch ∉ subList f w c := fun hS => hqS (hinto q ch hch hS)
        refine ⟨?_, ?_⟩
        · rw [hpar3 ch hchc]
          exact (h1 q ch hch).1
        · rw [hdep3out ch hchS, hdep3out q hqS]
          exact (h1 q ch hch).2
  · intro y q hyq
    by_cases hyc : y = c
    · subst hyc
      rw [hpar3c] at hyq
      injection hyq with hq
      rw [← hq, hkids3p]
      exact List.mem_append_right _ (List.mem_singleton.mpr rfl)
    · rw [hpar3 y hyc] at hyq
      have hmem2 := h2 y q hyq
      by_cases hqp : q = p
      · subst hqp
        rw [hkids3p]
        exact List.mem_append_left _ hmem2
      · rw [hkids3 q hqp]
        exact hmem2
  · intro q
    by_cases hqp : q = p
    · subst hqp
      rw [hkids3p]
      refine List.Nodup.append (h3 q) (List.nodup_singleton c) ?_
      intro a ha hb
      rw [List.mem_singleton] at hb
      subst hb
      exact hcnotchild q ha
    · rw [hkids3 q hqp]
      exact h3 q

/-- add preserves well-formedness when the child is detached and the
adopting parent is outside the child subtree (fuel covering the subtree
height, duplicate-free subtree listing). -/
theorem addE_WF (f k : Nat) (p c : NodeId) (w : World)
    (hwf : WF w) (hpar : ((w.nodes) c).parent = Option.none)
    (hsub : SubFin w c k) (hk : k ≤ f)
    (hnodup : (subList f w c).Nodup)
    (hout : p ∉ subList f w c) :
    WF (addE f p c w) := by
  unfold addE
  by_cases hg1 : c = p ∨ ((w.nodes) c).parent = some p
  · rw [if_pos hg1]
    exact hwf
  · rw [if_neg hg1]
    by_cases hg2 : ((w.nodes) c).depth < ((w.nodes) p).depth_max
    · rw [if_pos hg2]
      have hcp : c ≠ p := fun h => (not_or.mp hg1).1 h
      have hn2 : ∀ n, ((setNode (setNode w p
            (fun n => { n with children := n.children ++ [c] })) c
            (fun n => { n with parent := some p })).nodes) n
          = if n = c then { (w.nodes) c with parent := some p }
            else if n = p then
              { (w.nodes) p with children := ((w.nodes) p).children ++ [c] }
            else (w.nodes) n := by
        intro n
        simp only [setNode_nodes]
        by_cases hnc : n = c
        · rw [if_pos hnc, if_pos hnc, hnc, if_neg hcp]
        · rw [if_neg hnc, if_neg hnc]
          by_cases hnp : n = p
          · rw [if_pos hnp, if_pos hnp, hnp]
          · rw [if_neg hnp, if_neg hnp]
      have hcore := add_core_WF f k p c w _ ⟨hwf.1, hwf.2.1, hwf.2.2⟩
        hpar hsub hk hnodup hout hcp hn2
      have h4 := WF_transfer (treeEq_of_core (reset_coreEq f p _)) hcore
      have h5 := WF_transfer (treeEq_of_core (rootOf_coreEq f _ p)) h4
      simp only []
      split
      · exact WF_transfer (register_treeEq _ c) h5
      · exact h5
    · rw [if_neg hg2]
      exact hwf


/-- Counterexample world for the tree invariant: node 2 is the child of
root 0 (a well-formed two-tree forest with node 1 a detached root), all
off the bus. -/
def wC6 : World :=
  { nodes := fun j =>
      if j = 0 then { defNode with children := [2] }
      else if j = 2 then { defNode with parent := some 0, depth := 1 }
      else defNode,
    busOwner := Option.none, next_addr := 1, processed := 0,
    cleanup_count := 1000, queue := [], elements := [], cache := [] }

/-- C6 counterexample: from the well-formed forest wC6 (node 2 the sole
child of root 0, node 1 a separate root), a single add of node 2 onto
node 1 leaves node 2 in the children sequences of BOTH node 0 and node 1
while its parent pointer names node 1 only: the single-owner part of the
claim fails because UIElement.add never detaches the child from its
previous parent. -/
theorem claim_C6_cex :
    2 ∈ (((addE 4 1 2 wC6).nodes) 0).children
      ∧ 2 ∈ (((addE 4 1 2 wC6).nodes) 1).children
      ∧ (((addE 4 1 2 wC6).nodes) 2).parent = some 1
      ∧ ((wC6.nodes) 2).parent = some 0
      ∧ ((wC6.nodes) 2).depth = ((wC6.nodes) 0).depth + 1 := by
  decide

/-- All-default world: every node is a detached childless root. -/
def wW : World :=
  { nodes := fun _ => defNode,
    busOwner := Option.none, next_addr := 1, processed := 0,
    cleanup_count := 1000, queue := [], elements := [], cache := [] }

/-- C6 amended: on a well-formed world (parent/children agreement, child
depth = parent depth + 1, duplicate-free children lists), detach of ANY
pair of nodes preserves well-formedness; attach preserves it provided
the child is currently detached and the adopting parent lies outside the
child subtree (with fuel at least the subtree height and a
duplicate-free subtree listing); and a well-formed world is acyclic, so
no node is its own descendant. The attach-side preconditions are stated
inside the attach conjunct so that the detach and acyclicity conjuncts
hold under well-formedness alone. -/
theorem claim_C6_amended (f k : Nat) (p c n : NodeId) (w : World)
    (hwf : WF w) :
    WF (removeE f p c w)
    ∧ (((w.nodes) c).parent = Option.none → SubFin w c k → k ≤ f →
        (subList f w c).Nodup → p ∉ subList f w c → WF (addE f p c w))
    ∧ ¬ Desc w n n :=
  ⟨removeE_WF f p c w hwf,
   fun hpar hsub hk hnodup hout =>
     addE_WF f k p c w hwf hpar hsub hk hnodup hout,
   WF_acyclic hwf n⟩

theorem wW_WF : WF wW :=
  ⟨fun p c hc => absurd hc (List.not_mem_nil c),
   fun c p hp => Option.noConfusion hp,
   fun p => List.nodup_nil⟩

theorem wC6_WF : WF wC6 := by
  refine ⟨?_, ?_, ?_⟩
  · intro p c hc
    by_cases hp : p = 0
    · subst hp
      have hc2 : c = 2 := by simpa [wC6] using hc
      subst hc2
      exact ⟨rfl, rfl⟩
    · by_cases hp2 : p = 2
      · subst hp2
        simp [wC6, defNode] at hc
      · simp [wC6, defNode, hp, hp2] at hc
  · intro c p hp
    by_cases hc0 : c = 0
    · subst hc0
      simp [wC6, defNode] at hp
    · by_cases hc2 : c = 2
      · subst hc2
        have hp0 : some 0 = some p := hp
        injection hp0 with h
        rw [← h]
        decide
      · simp [wC6, defNode, hc0, hc2] at hp
  · intro q
    by_cases h0 : q = 0
    · subst h0
      decide
    · by_cases h2 : q = 2
      · subst h2
        decide
      · simp [wC6, defNode, h0, h2]

theorem claim_C6_witness :
    WF (removeE 4 0 2 wC6) ∧ WF (addE 2 0 1 wW) ∧ ¬ Desc wC6 0 0 :=
  ⟨(claim_C6_amended 4 1 0 2 0 wC6 wC6_WF).1,
   (claim_C6_amended 2 1 0 1 5 wW wW_WF).2.1
     rfl
     (SubFin.mk (fun c hc => absurd hc (List.not_mem_nil c)))
     (by decide) (by decide) (by decide),
   (claim_C6_amended 4 1 0 2 0 wC6 wC6_WF).2.2⟩

end PyGUI
